import Mathlib

/-!
# zwasm.h: a verification development

A shallow embedding of the bare-WASM half of `zwasm.h` (the input table, the
minimal libc, `zwasm__itoa`, the bump allocator, `zwasm_dom_set_html` and
`zwasm_printf`), of the host stand-in `zwasm_random` and of the bouncer of
`example_2.c`, together with the properties stated about them.

Conventions of the embedding

* a byte is a `Nat` (its value as `unsigned char`), a C `int` is an `Int`
  inside `[-2^31, 2^31)`, and an operation that can overflow is followed by an
  explicit two's complement wrap (`wrap32`);
* a pointer is an address of the 32-bit linear memory, a `Nat` below `2^32`,
  and pointer arithmetic is taken modulo `2^32` (`ptr_add`); the memory is a
  function from addresses to bytes;
* a C string or pattern is the list of the bytes found from its pointer on, so
  the text is what precedes the first zero byte and the rest of the list is
  whatever follows the terminator in memory;
* a `double` is the rational number it denotes (`isDouble`), and an arithmetic
  operation of the `%f` conversion is followed by the IEEE 754 rounding to the
  nearest double, ties to even (`roundDouble`); the `float`s of the bouncer are
  small integers, on which the arithmetic is exact;
* `none` stands for undefined behaviour of the C program (a store outside an
  array, a read outside the modelled memory, a `va_arg` that has no argument
  of the requested type, a conversion `(int)f` out of the range of `int`); the
  `%f` conversion is also `none` on a rational number that is not a finite
  `double`.
-/

namespace Zwasm

/-! ## Machine arithmetic -/

/-- Two's complement wrap of a mathematical integer into the range of `int`. -/
def wrap32 (x : Int) : Int := (x + 2147483648) % 4294967296 - 2147483648

/-- Conversion of an `int` value to the byte stored by an assignment to `char`. -/
def toByte (x : Int) : Nat := (x % 256).toNat

/-! ## `zwasm__itoa` (zwasm.h, lines 151-173) -/

/-- The loop `while (i) { t[k++] = (i % 10) + '0'; i /= 10; }`.  The list is the
scratch array `t[0..k)`, so `k` is its length.  `/` and `%` are the truncating
C operators.  The first argument bounds the number of iterations. -/
def zwasm__itoa_digits : Nat → Int → List Nat → List Nat
  | 0, _, t => t
  | fuel + 1, i, t =>
    if i = 0 then t
    else zwasm__itoa_digits fuel (Int.tdiv i 10) (t ++ [toByte (Int.tmod i 10 + 48)])

/-- The contents of the scratch array `t[0..k)` when the second loop of
`zwasm__itoa` starts, for the value `i` left by the sign step. -/
def zwasm__itoa_scratch (i : Int) : List Nat :=
  zwasm__itoa_digits i.natAbs i (if 0 = i then [48] else [])

/-- The bytes `zwasm__itoa(i, p)` stores at `p, p+1, ...`, in order; the pointer
it returns is `p` plus the length of this list.  `i = -i` wraps as the
compiled code does. -/
def zwasm__itoa (i : Int) : List Nat :=
  (if i < 0 then [45] else []) ++
    (zwasm__itoa_scratch (if i < 0 then wrap32 (-i) else i)).reverse

/-! ## Reading decimal text (the specification's side of the round trip) -/

/-- A byte in `'0'..'9'`. -/
def isDigit (b : Nat) : Prop := 48 ≤ b ∧ b ≤ 57

instance (b : Nat) : Decidable (isDigit b) := by unfold isDigit; infer_instance

/-- The number denoted by a run of decimal digits, most significant first. -/
def decodeDigits (ds : List Nat) : Nat := ds.foldl (fun acc b => acc * 10 + (b - 48)) 0

/-- A non-empty run of decimal digits. -/
def isDigits (ds : List Nat) : Prop := ds ≠ [] ∧ ∀ b ∈ ds, isDigit b

instance (ds : List Nat) : Decidable (isDigits ds) := by unfold isDigits; infer_instance

/-- Decoding of a signed decimal text: an optional leading `'-'` followed by a
non-empty run of digits; `none` for any other byte sequence. -/
def decodeDec : List Nat → Option Int
  | 45 :: ds => if isDigits ds then some (-(decodeDigits ds : Int)) else none
  | ds => if isDigits ds then some (decodeDigits ds : Int) else none

/-! ## `zwasm_printf`, bare-WASM build (zwasm.h, lines 284-338) -/

/-- One variadic argument, with the type at which the caller passed it. -/
inductive Arg where
  | int (i : Int)
  | str (s : List Nat)
  | dbl (f : ℚ)

/-- The conversion `(int)f`: truncation toward zero. -/
def truncQ (f : ℚ) : Int := if 0 ≤ f then ⌊f⌋ else -⌊-f⌋

/-- Rounding of a rational number to the nearest integer, a tie going to the even one. -/
def roundHalfEven (y : ℚ) : Int :=
  if y - (⌊y⌋ : ℚ) < 1 / 2 then ⌊y⌋
  else if 1 / 2 < y - (⌊y⌋ : ℚ) then ⌊y⌋ + 1
  else if ⌊y⌋ % 2 = 0 then ⌊y⌋ else ⌊y⌋ + 1

/-- The exponent of the unit in the last place of binary64 at the magnitude `a > 0`:
52 below the binade of `a`, and -1074 throughout the subnormal range. -/
def ulpExp (a : ℚ) : Int := max (Int.log 2 a) (-1022) - 52

/-- The IEEE 754 binary64 result of an operation whose exact result is `x`: `x` rounded
to the nearest multiple of its unit in the last place, ties to even.  Overflow to
infinity is left out; the results rounded in this file are below `2^10` in magnitude. -/
def roundDouble (x : ℚ) : ℚ :=
  if x = 0 then 0 else (roundHalfEven (x / 2 ^ ulpExp |x|) : ℚ) * 2 ^ ulpExp |x|

/-- A finite value of type `double`: a rational number that binary64 represents. -/
def isDouble (x : ℚ) : Prop := roundDouble x = x ∧ |x| < 2 ^ (1024 : Int)

instance (x : ℚ) : Decidable (isDouble x) := by unfold isDouble; infer_instance

/-- The loop `while (*s) { *p++ = *s++; }` of the `%s` conversion: the bytes it
stores, for the memory `s[0], s[1], ...` the argument points to.  `none` when the
loop runs off the modelled memory without meeting a terminator. -/
def zwasm_printf_s : List Nat → Option (List Nat)
  | [] => none
  | c :: s => if c = 0 then some [] else (zwasm_printf_s s).map (fun r => c :: r)

/-- The bytes the `%f` conversion stores (lines 309-326): `i = (int)f` through
`zwasm__itoa`, a `'.'`, then `fr = (int)((f-i)*1000)`, negated when negative,
padded with `'0'` below 10 and below 100, through `zwasm__itoa`.  The subtraction and
the product are `double` operations, each rounded to the nearest double.  `none` when
`f` is not a value of type `double` or `(int)f` is not representable. -/
def zwasm_printf_f (f : ℚ) : Option (List Nat) :=
  let i := truncQ f
  if isDouble f ∧ -2147483648 ≤ i ∧ i < 2147483648 then
    let fr0 := truncQ (roundDouble (roundDouble (f - (i : ℚ)) * 1000))
    let fr := if fr0 < 0 then wrap32 (-fr0) else fr0
    some (zwasm__itoa i ++ [46] ++ (if fr < 10 then [48] else []) ++
      (if fr < 100 then [48] else []) ++ zwasm__itoa fr)
  else none

/-- The scan loop of `zwasm_printf` (lines 290-334).  The first argument is the
memory `fmt[0], fmt[1], ...` from the current value of `fmt` on, the second the
bytes stored so far at `buf[0..p)` (so `p - buf` is its length), the third the
arguments `va_arg` has not consumed yet.  The result is `buf[0..p)` when the loop
ends. -/
def zwasm_printf_loop : List Nat → List Nat → List Arg → Option (List Nat)
  | [], _, _ => none
  | c :: fmt, out, args =>
    if c = 0 ∨ ¬ out.length < 1000 then some out
    else if c = 37 then
      match fmt with
      | [] => none
      | d :: fmt' =>
        if d = 100 then
          match args with
          | Arg.int i :: args' => zwasm_printf_loop fmt' (out ++ zwasm__itoa i) args'
          | _ => none
        else if d = 115 then
          match args with
          | Arg.str s :: args' =>
            match zwasm_printf_s s with
            | some r => zwasm_printf_loop fmt' (out ++ r) args'
            | none => none
          | _ => none
        else if d = 102 then
          match args with
          | Arg.dbl f :: args' =>
            match zwasm_printf_f f with
            | some r => zwasm_printf_loop fmt' (out ++ r) args'
            | none => none
          | _ => none
        else zwasm_printf_loop fmt' out args
    else zwasm_printf_loop fmt (out ++ [c]) args

/-- Every byte `zwasm_printf` stores through `p`, in order: the k-th byte of the
list is stored at `buf[k]`.  The last one is the terminator of line 335. -/
def zwasm_printf_stores (fmt : List Nat) (args : List Arg) : Option (List Nat) :=
  (zwasm_printf_loop fmt [] args).map (fun out => out ++ [0])

/-- The text `zwasm_log(msg)` hands to the host, `js_log(msg, strlen(msg))`: the
bytes of `msg` before its first zero byte. -/
def zwasm_log (msg : List Nat) : List Nat := msg.takeWhile (fun b => b ≠ 0)

/-- The call `zwasm_printf(fmt, ...)`: the text handed to `zwasm_log`, defined when
every store lands inside `char buf[1024]`. -/
def zwasm_printf (fmt : List Nat) (args : List Arg) : Option (List Nat) :=
  match zwasm_printf_stores fmt args with
  | some w => if w.length ≤ 1024 then some (zwasm_log w) else none
  | none => none

/-! ## The bump allocator, bare-WASM build (zwasm.h, lines 139-148 and 224-251) -/

/-- Pointer arithmetic in the 32-bit linear address space. -/
def ptr_add (p n : Nat) : Nat := (p + n) % 4294967296

/-- The allocator's global state and the linear memory it hands out. -/
structure Heap where
  /-- The cursor `zwasm__heap_ptr`. -/
  heap_ptr : Nat
  /-- The byte stored at each address. -/
  mem : Nat → Nat

/-- The function `zwasm_mem_init(s, sz)`: both arguments are ignored. -/
def zwasm_mem_init (_s _sz : Nat) (st : Heap) : Heap := st

/-- The function `zwasm_malloc(size)`: returns the cursor and advances it. -/
def zwasm_malloc (size : Nat) (st : Heap) : Nat × Heap :=
  (st.heap_ptr, { st with heap_ptr := ptr_add st.heap_ptr size })

/-- The function `zwasm_free(ptr)`: an empty body. -/
def zwasm_free (_ptr : Nat) (st : Heap) : Heap := st

/-- The loop `while (n--) { *dp++ = *sp++; }` of `memcpy`. -/
def memcpy_loop : Nat → Nat → Nat → (Nat → Nat) → (Nat → Nat)
  | 0, _, _, m => m
  | n + 1, dp, sp, m =>
    memcpy_loop n (ptr_add dp 1) (ptr_add sp 1) (fun a => if a = dp then m sp else m a)

/-- The function `memcpy(d, s, n)`: the returned pointer and the memory afterwards. -/
def memcpy (d s n : Nat) (m : Nat → Nat) : Nat × (Nat → Nat) := (d, memcpy_loop n d s m)

/-- The function `zwasm_realloc(ptr, new_size)`: a fresh block from `zwasm_malloc`,
filled by `memcpy` from `ptr`. -/
def zwasm_realloc (ptr new_size : Nat) (st : Heap) : Nat × Heap :=
  let r := zwasm_malloc new_size st
  (r.1, { r.2 with mem := (memcpy r.1 ptr new_size r.2.mem).2 })

/-- One call on the allocator. -/
inductive AllocOp where
  | mem_init (s sz : Nat)
  | malloc (size : Nat)
  | realloc (ptr new_size : Nat)
  | free (ptr : Nat)

/-- The state after one call. -/
def AllocOp.step (st : Heap) : AllocOp → Heap
  | AllocOp.mem_init s sz => zwasm_mem_init s sz st
  | AllocOp.malloc size => (zwasm_malloc size st).2
  | AllocOp.realloc ptr n => (zwasm_realloc ptr n st).2
  | AllocOp.free ptr => zwasm_free ptr st

/-- The number of bytes a call requests from the allocator. -/
def AllocOp.request : AllocOp → Nat
  | AllocOp.mem_init _ _ => 0
  | AllocOp.malloc size => size
  | AllocOp.realloc _ n => n
  | AllocOp.free _ => 0

/-- The state after a sequence of calls, first call first. -/
def runAlloc (st : Heap) (ops : List AllocOp) : Heap := ops.foldl AllocOp.step st

/-! ## The input table (zwasm.h, lines 97-114) -/

/-- The initial value of `zwasm__keys`: `{0}`. -/
def zwasm__keys : Fin 256 → Bool := fun _ => false

/-- The function `zwasm_on_key(key_code, is_down)`: the table afterwards. -/
def zwasm_on_key (key_code : Int) (is_down : Bool) (keys : Fin 256 → Bool) : Fin 256 → Bool :=
  if h : key_code ≥ 0 ∧ key_code < 256 then
    Function.update keys ⟨key_code.toNat, by omega⟩ is_down
  else keys

/-- The function `zwasm_key_down(key_code)`. -/
def zwasm_key_down (key_code : Int) (keys : Fin 256 → Bool) : Bool :=
  if h : key_code ≥ 0 ∧ key_code < 256 then keys ⟨key_code.toNat, by omega⟩ else false

/-! ## `strlen` (zwasm.h, lines 120-128) -/

/-- The loop `while (*p) { p++; }` of `strlen`: the first argument is the memory from
`p` on, the second is `p - s`.  `none` when the loop runs off the modelled memory without
meeting a zero byte. -/
def strlen_loop : List Nat → Nat → Option Nat
  | [], _ => none
  | c :: s, k => if c = 0 then some k else strlen_loop s (k + 1)

/-- The function `strlen(s)` for the memory `s[0], s[1], ...`: the value `p - s` it
returns.  A stretch of the 32-bit memory has fewer than `2^32` bytes, so the
difference fits `size_t`. -/
def strlen (s : List Nat) : Option Nat := strlen_loop s 0

/-! ## `zwasm_dom_set_html`, bare-WASM build (zwasm.h, lines 254-282) -/

/-- The literal `s1`: "var e=document.getElementById('". -/
def dom_s1 : List Nat :=
  [118, 97, 114, 32, 101, 61, 100, 111, 99, 117, 109, 101, 110, 116, 46, 103, 101, 116, 69,
    108, 101, 109, 101, 110, 116, 66, 121, 73, 100, 40, 39]

/-- The literal `s2`: "');if(e)e.innerHTML=" followed by a backquote. -/
def dom_s2 : List Nat :=
  [39, 41, 59, 105, 102, 40, 101, 41, 101, 46, 105, 110, 110, 101, 114, 72, 84, 77, 76, 61, 96]

/-- The literal `s3`: a backquote followed by ";". -/
def dom_s3 : List Nat := [96, 59]

/-- One copy loop `while (*s && p<end) { *p++ = *s++; }` with `end = buf + 4095`: the
first argument is the memory from `s` on, the second the bytes stored so far at
`buf[0..p)`; the result is `buf[0..p)` when the loop ends. -/
def zwasm_dom_copy : List Nat → List Nat → Option (List Nat)
  | [], _ => none
  | c :: s, out =>
    if c = 0 ∨ ¬ out.length < 4095 then some out else zwasm_dom_copy s (out ++ [c])

/-- Every byte `zwasm_dom_set_html` stores through `p`, in order (the k-th byte is
stored at `buf[k]`): the five copy loops and the terminator of line 280. -/
def zwasm_dom_set_html_stores (id html : List Nat) : Option (List Nat) :=
  (zwasm_dom_copy (dom_s1 ++ [0]) []).bind fun p1 =>
  (zwasm_dom_copy id p1).bind fun p2 =>
  (zwasm_dom_copy (dom_s2 ++ [0]) p2).bind fun p3 =>
  (zwasm_dom_copy html p3).bind fun p4 =>
  (zwasm_dom_copy (dom_s3 ++ [0]) p4).map fun p5 => p5 ++ [0]

/-- The text `zwasm_eval(js)` hands to the host, `js_eval(js, strlen(js))`: the bytes
of `js` before its first zero byte. -/
def zwasm_eval (js : List Nat) : List Nat := js.takeWhile (fun b => b ≠ 0)

/-- The call `zwasm_dom_set_html(id, html)`: the script text handed to `zwasm_eval`
and the value returned, defined when every store lands inside `char buf[4096]`. -/
def zwasm_dom_set_html (id html : List Nat) : Option (List Nat × Bool) :=
  match zwasm_dom_set_html_stores id html with
  | some w => if w.length ≤ 4096 then some (zwasm_eval w, true) else none
  | none => none

/-! ## `zwasm_random`, host build (zwasm.h, lines 367-370) -/

/-- The host stand-in `(float)rand() / (float)RAND_MAX`, for the value `r` that `rand()`
returned.  `RAND_MAX` comes from the platform's `<stdlib.h>` and is a parameter; so is
`fl`, the rounding of a real number to `float`, applied by both conversions and by the
division. -/
def zwasm_random (fl : ℚ → ℚ) (RAND_MAX r : Int) : ℚ :=
  fl (fl (r : ℚ) / fl (RAND_MAX : ℚ))

/-! ## The bouncer of example_2.c (lines 5-41) -/

/-- The mutable statics of the example: position and velocity. -/
structure Bouncer where
  x : ℚ
  y : ℚ
  dx : ℚ
  dy : ℚ

/-- The static initialisers of lines 5-6; `main` does not touch them. -/
def bouncer_start : Bouncer := { x := 10, y := 10, dx := 4, dy := 4 }

/-- The static `size`. -/
def size : ℚ := 50

/-- The static `width`. -/
def width : ℚ := 600

/-- The static `height`. -/
def height : ℚ := 400

/-- The export `on_frame`: move, then negate a velocity whose coordinate touches a
wall.  All values of the scenario are small integers, which `float` represents and adds
exactly. -/
def on_frame (s : Bouncer) : Bouncer :=
  { x := s.x + s.dx
    y := s.y + s.dy
    dx := if s.x + s.dx ≤ 0 ∨ s.x + s.dx + size ≥ width then -s.dx else s.dx
    dy := if s.y + s.dy ≤ 0 ∨ s.y + s.dy + size ≥ height then -s.dy else s.dy }

/-- The state after the initialiser and `k` calls of `on_frame`. -/
def frames : Nat → Bouncer
  | 0 => bouncer_start
  | k + 1 => on_frame (frames k)

/-! ## The specification's side of the `%f` conversion -/

/-- Three decimal digits, zero-padded, of a number below 1000. -/
def threeDigits (n : Nat) : List Nat := [n / 100 % 10 + 48, n / 10 % 10 + 48, n % 10 + 48]

/-- The fraction stated for the `%f` conversion, in the specification's words:
`floor(|f − floor(f)| × 1000)`. -/
def statedThousandths (f : ℚ) : Int := ⌊|f - (⌊f⌋ : ℚ)| * 1000⌋

/-- The same with the truncated integer part `(int)f` in place of `floor(f)`. -/
def truncThousandths (f : ℚ) : Int := ⌊|f - (truncQ f : ℚ)| * 1000⌋

/-- The thousandths the code arrives at: the magnitude of the double nearest to the
product `(f − (int)f) × 1000`, truncated to an integer. -/
def roundedThousandths (f : ℚ) : Int := ⌊|roundDouble ((f - (truncQ f : ℚ)) * 1000)|⌋

/-! ## The specification's side of the pattern scan -/

/-- The parts a pattern text is read as: a byte copied literally, one of the three
conversions, or a `'%'` followed by another byte `c`. -/
inductive Piece where
  | lit (c : Nat)
  | convD
  | convS
  | convF
  | skip (c : Nat)

/-- The parts of a pattern text (the bytes before its terminator), left to right. -/
def pieces : List Nat → List Piece
  | [] => []
  | c :: t =>
    if c = 37 then
      match t with
      | [] => []
      | d :: t' =>
        (if d = 100 then Piece.convD else if d = 115 then Piece.convS
          else if d = 102 then Piece.convF else Piece.skip d) :: pieces t'
    else Piece.lit c :: pieces t

/-- Whether the pattern text ends in a `'%'` that introduces nothing: the byte after
it is the terminator. -/
def dangling : List Nat → Bool
  | [] => false
  | c :: t =>
    if c = 37 then
      match t with
      | [] => true
      | _ :: t' => dangling t'
    else dangling t

/-- The bytes one part contributes and the arguments left after it: a literal byte is
copied, each conversion consumes one argument of its type, a `'%'` followed by
another byte contributes nothing and consumes nothing. -/
def emit : Piece → List Arg → Option (List Nat × List Arg)
  | Piece.lit c, args => some ([c], args)
  | Piece.skip _, args => some ([], args)
  | Piece.convD, Arg.int i :: args => some (zwasm__itoa i, args)
  | Piece.convS, Arg.str s :: args => (zwasm_printf_s s).map (fun r => (r, args))
  | Piece.convF, Arg.dbl f :: args => (zwasm_printf_f f).map (fun r => (r, args))
  | _, _ => none

/-- The concatenation of what the parts contribute, in order. -/
def render : List Piece → List Arg → Option (List Nat)
  | [], _ => some []
  | p :: ps, args =>
    match emit p args with
    | some (o, args') => (render ps args').map (fun r => o ++ r)
    | none => none

/-! ## The specification's side of the input events -/

/-- The table after a sequence of `zwasm_on_key(code, is_down)` events, first event
first. -/
def keyEvents (keys : Fin 256 → Bool) (events : List (Int × Bool)) : Fin 256 → Bool :=
  events.foldl (fun k e => zwasm_on_key e.1 e.2 k) keys

/-- The `is_down` value of the most recent event whose code is `c`, and false when
there is no such event. -/
def lastLevel (c : Int) (events : List (Int × Bool)) : Bool :=
  match (events.filter (fun e => e.1 = c)).getLast? with
  | some e => e.2
  | none => false

/-! ## Reading fixed-point text -/

/-- The number a text `[-]A.ddd` denotes, in thousandths: the signed decimal before
the `'.'` times 1000, with the three digits after it added to the magnitude; `none` for
any other byte sequence. -/
def decodeMilli (bs : List Nat) : Option Int :=
  match decodeDec (bs.takeWhile (fun b => b ≠ 46)) with
  | some a =>
    if isDigits ((bs.dropWhile (fun b => b ≠ 46)).drop 1) ∧
        ((bs.dropWhile (fun b => b ≠ 46)).drop 1).length = 3 then
      some (if bs.head? = some 45
        then a * 1000 - (decodeDigits ((bs.dropWhile (fun b => b ≠ 46)).drop 1) : Int)
        else a * 1000 + (decodeDigits ((bs.dropWhile (fun b => b ≠ 46)).drop 1) : Int))
    else none
  | none => none

/-! ## Concrete allocator states used below -/

/-- A heap whose cursor is at 64 KiB, all memory zero. -/
def heap0 : Heap := { heap_ptr := 65536, mem := fun _ => 0 }

/-- A heap whose cursor is at 64 KiB; the bytes at 16 and 17 are 7 and 8. -/
def heap1 : Heap :=
  { heap_ptr := 65536, mem := fun a => if a = 16 then 7 else if a = 17 then 8 else 0 }

/-! ## Auxiliary definitions for the proofs -/

/-- Digits of a natural number, least significant first, as the loop pushes them. -/
def lsdDigits : Nat → Nat → List Nat
  | 0, _ => []
  | fuel + 1, n => if n = 0 then [] else (n % 10 + 48) :: lsdDigits fuel (n / 10)

/-! ## Facts about `zwasm__itoa` -/

theorem toByte_digit (d : Int) (h0 : 0 ≤ d) (h9 : d ≤ 9) :
    toByte (d + 48) = d.toNat + 48 := by
  unfold toByte
  rw [Int.emod_eq_of_lt (by omega) (by omega)]
  omega

theorem itoa_digits_nat (fuel : Nat) : ∀ (n : Nat) (t : List Nat),
    zwasm__itoa_digits fuel (n : Int) t = t ++ lsdDigits fuel n := by
  induction fuel with
  | zero => intro n t; simp [zwasm__itoa_digits, lsdDigits]
  | succ k ih =>
    intro n t
    unfold zwasm__itoa_digits lsdDigits
    by_cases hn : n = 0
    · simp [hn]
    · have hn' : (n : Int) ≠ 0 := by exact_mod_cast hn
      simp only [hn, hn', if_false]
      have h1 : Int.tdiv (n : Int) 10 = ((n / 10 : Nat) : Int) := by
        rw [Int.tdiv_eq_ediv (by omega) (by norm_num)]; norm_cast
      have h2 : Int.tmod (n : Int) 10 = ((n % 10 : Nat) : Int) := by
        rw [Int.tmod_eq_emod (by omega) (by norm_num)]; norm_cast
      rw [h1, h2, ih, toByte_digit _ (by omega) (by omega)]
      rw [Int.toNat_natCast]
      simp

theorem lsdDigits_value (fuel : Nat) : ∀ n : Nat, n ≤ fuel →
    (lsdDigits fuel n).foldr (fun b acc => (b - 48) + 10 * acc) 0 = n := by
  induction fuel with
  | zero => intro n h; simp [lsdDigits]; omega
  | succ k ih =>
    intro n h
    unfold lsdDigits
    by_cases hn : n = 0
    · simp [hn]
    · simp only [hn, if_false, List.foldr_cons]
      rw [ih (n / 10) (by omega)]
      omega

theorem lsdDigits_isDigit (fuel : Nat) : ∀ n : Nat, ∀ b ∈ lsdDigits fuel n, isDigit b := by
  induction fuel with
  | zero => intro n b hb; simp [lsdDigits] at hb
  | succ k ih =>
    intro n b hb
    unfold lsdDigits at hb
    by_cases hn : n = 0
    · simp [hn] at hb
    · simp only [hn, if_false, List.mem_cons] at hb
      rcases hb with hb | hb
      · unfold isDigit; omega
      · exact ih _ b hb

theorem lsdDigits_ne_nil (fuel n : Nat) (h0 : 0 < n) (h : n ≤ fuel) :
    lsdDigits fuel n ≠ [] := by
  cases fuel with
  | zero => omega
  | succ k => unfold lsdDigits; simp; omega

theorem decodeDigits_reverse (l : List Nat) :
    decodeDigits l.reverse = l.foldr (fun b acc => (b - 48) + 10 * acc) 0 := by
  unfold decodeDigits
  rw [List.foldl_reverse]
  induction l with
  | nil => rfl
  | cons a l ih => simp only [List.foldr_cons, ih]; omega

theorem itoa_scratch_nat (n : Nat) :
    zwasm__itoa_scratch (n : Int) = if n = 0 then [48] else lsdDigits n n := by
  unfold zwasm__itoa_scratch
  rw [itoa_digits_nat]
  by_cases hn : n = 0
  · subst hn; simp [lsdDigits]
  · have hn' : ¬ (0 : Int) = (n : Int) := by exact_mod_cast (Ne.symm hn)
    simp [hn, hn']

theorem itoa_scratch_isDigits (n : Nat) : isDigits (zwasm__itoa_scratch (n : Int)).reverse := by
  rw [itoa_scratch_nat]
  by_cases hn : n = 0
  · simp [hn, isDigits, isDigit]
  · simp only [hn, if_false]
    refine ⟨?_, ?_⟩
    · simpa using lsdDigits_ne_nil n n (by omega) (le_refl n)
    · intro b hb
      exact lsdDigits_isDigit n n b (by simpa using hb)

theorem itoa_scratch_value (n : Nat) :
    decodeDigits (zwasm__itoa_scratch (n : Int)).reverse = n := by
  rw [itoa_scratch_nat, decodeDigits_reverse]
  by_cases hn : n = 0
  · simp [hn]
  · simp only [hn, if_false]
    exact lsdDigits_value n n (le_refl n)

theorem decodeDec_digits (ds : List Nat) (h : isDigits ds) :
    decodeDec ds = some (decodeDigits ds : Int) := by
  cases ds with
  | nil => exact absurd rfl h.1
  | cons a l =>
    have ha : a ≠ 45 := by
      have := h.2 a (by simp)
      unfold isDigit at this; omega
    unfold decodeDec
    split
    · rename_i ds heq
      simp only [List.cons.injEq] at heq
      exact absurd heq.1 ha
    · simp [h]

theorem decodeDec_minus (ds : List Nat) (h : isDigits ds) :
    decodeDec (45 :: ds) = some (-(decodeDigits ds : Int)) := by
  simp [decodeDec, h]

theorem wrap32_id (x : Int) (hlo : -2147483648 ≤ x) (hhi : x < 2147483648) : wrap32 x = x := by
  unfold wrap32
  rw [Int.emod_eq_of_lt (by omega) (by omega)]
  omega

/-- The text of `zwasm__itoa` for an `int` other than the minimum: sign, then the
digits of the magnitude. -/
theorem itoa_eq (i : Int) (hlo : -2147483648 < i) (hhi : i < 2147483648) :
    zwasm__itoa i =
      (if i < 0 then [45] else []) ++ (zwasm__itoa_scratch ((i.natAbs : Nat) : Int)).reverse := by
  unfold zwasm__itoa
  by_cases hi : i < 0
  · simp only [hi, if_true]
    rw [wrap32_id _ (by omega) (by omega)]
    have : -i = ((i.natAbs : Nat) : Int) := by omega
    rw [this]
  · simp only [hi, if_false]
    have : i = ((i.natAbs : Nat) : Int) := by omega
    rw [← this]

/-! ## Facts about the `%f` conversion -/

theorem lsdDigits_zero (fuel : Nat) : lsdDigits fuel 0 = [] := by
  cases fuel <;> simp [lsdDigits]

theorem lsdDigits_fuel (f1 : Nat) : ∀ (f2 n : Nat), n < 10 ^ f1 → n < 10 ^ f2 →
    lsdDigits f1 n = lsdDigits f2 n := by
  induction f1 with
  | zero =>
    intro f2 n h1 _
    have : n = 0 := by simpa using h1
    subst this
    rw [lsdDigits_zero, lsdDigits_zero]
  | succ k ih =>
    intro f2 n h1 h2
    cases f2 with
    | zero =>
      have : n = 0 := by simpa using h2
      subst this
      rw [lsdDigits_zero, lsdDigits_zero]
    | succ m =>
      unfold lsdDigits
      by_cases hn : n = 0
      · simp [hn]
      · simp only [hn, if_false]
        rw [ih m (n / 10)
          (by rw [pow_succ] at h1; exact Nat.div_lt_of_lt_mul (by omega))
          (by rw [pow_succ] at h2; exact Nat.div_lt_of_lt_mul (by omega))]

theorem itoa_nat (n : Nat) (h : n < 2147483648) :
    zwasm__itoa (n : Int) = (if n = 0 then [48] else lsdDigits n n).reverse := by
  rw [itoa_eq _ (by omega) (by omega)]
  have h0 : ¬ ((n : Int) < 0) := by omega
  simp only [h0, if_false, List.nil_append, Int.natAbs_ofNat, itoa_scratch_nat]

theorem pad_itoa (n : Nat) (h : n < 1000) :
    (if (n : Int) < 10 then [48] else []) ++ (if (n : Int) < 100 then [48] else []) ++
      zwasm__itoa (n : Int) = threeDigits n := by
  rw [itoa_nat n (by omega), lsdDigits_fuel n 3 n (Nat.lt_pow_self (by norm_num) n) (by omega)]
  unfold threeDigits
  have e1 : ((n : Int) < 10) ↔ n < 10 := by omega
  have e2 : ((n : Int) < 100) ↔ n < 100 := by omega
  simp only [e1, e2, lsdDigits]
  by_cases h0 : n = 0
  · subst h0; simp
  by_cases h1 : n < 10
  · have : n / 10 = 0 := by omega
    have : n < 100 := by omega
    simp [*]
    omega
  by_cases h2 : n < 100
  · have : n / 10 ≠ 0 := by omega
    have : n / 10 / 10 = 0 := by omega
    simp [*]
    omega
  · have : n / 10 ≠ 0 := by omega
    have : n / 10 / 10 ≠ 0 := by omega
    simp [*]
    omega

theorem truncQ_abs (x : ℚ) :
    (if truncQ x < 0 then -(truncQ x) else truncQ x) = ⌊|x|⌋ := by
  unfold truncQ
  by_cases hx : 0 ≤ x
  · have h0 : (0 : Int) ≤ ⌊x⌋ := Int.floor_nonneg.mpr hx
    simp only [hx, if_true, abs_of_nonneg hx]
    rw [if_neg (by omega)]
  · have hx' : x < 0 := lt_of_not_ge hx
    have h0 : (0 : Int) ≤ ⌊-x⌋ := Int.floor_nonneg.mpr (by linarith)
    simp only [hx, if_false, abs_of_neg hx']
    by_cases h1 : ⌊-x⌋ = 0
    · simp [h1]
    · rw [if_pos (by omega)]; omega

theorem abs_sub_truncQ_lt_one (f : ℚ) : |f - (truncQ f : ℚ)| < 1 := by
  unfold truncQ
  by_cases hx : 0 ≤ f
  · simp only [hx, if_true]
    have h1 := Int.floor_le f
    have h2 := Int.lt_floor_add_one f
    rw [abs_lt]; constructor <;> linarith
  · simp only [hx, if_false]
    have h1 := Int.floor_le (-f)
    have h2 := Int.lt_floor_add_one (-f)
    push_cast
    rw [abs_lt]; constructor <;> linarith

/-! ## Facts about the rounding to `double` -/

theorem roundHalfEven_cases (y : ℚ) :
    (roundHalfEven y = ⌊y⌋ ∧ y - (⌊y⌋ : ℚ) ≤ 1 / 2) ∨
      (roundHalfEven y = ⌊y⌋ + 1 ∧ 1 / 2 ≤ y - (⌊y⌋ : ℚ)) := by
  unfold roundHalfEven
  by_cases h1 : y - (⌊y⌋ : ℚ) < 1 / 2
  · left; rw [if_pos h1]; exact ⟨rfl, le_of_lt h1⟩
  · by_cases h2 : 1 / 2 < y - (⌊y⌋ : ℚ)
    · right; rw [if_neg h1, if_pos h2]; exact ⟨rfl, le_of_lt h2⟩
    · have h3 : y - (⌊y⌋ : ℚ) = 1 / 2 := le_antisymm (not_lt.mp h2) (not_lt.mp h1)
      by_cases h4 : ⌊y⌋ % 2 = 0
      · left; rw [if_neg h1, if_neg h2, if_pos h4]; exact ⟨rfl, le_of_eq h3⟩
      · right; rw [if_neg h1, if_neg h2, if_neg h4]; exact ⟨rfl, le_of_eq h3.symm⟩

theorem roundHalfEven_le (y : ℚ) (N : Int) (h : y ≤ N) : roundHalfEven y ≤ N := by
  have hfl := Int.floor_le y
  rcases roundHalfEven_cases y with ⟨e, _⟩ | ⟨e, hh⟩
  · rw [e]
    exact_mod_cast (Int.floor_le_floor h).trans_eq (Int.floor_intCast N)
  · rw [e]
    have : (⌊y⌋ : ℚ) < (N : ℚ) := by linarith
    have : ⌊y⌋ < N := by exact_mod_cast this
    omega

theorem le_roundHalfEven (y : ℚ) (N : Int) (h : (N : ℚ) ≤ y) : N ≤ roundHalfEven y := by
  have h1 : N ≤ ⌊y⌋ := Int.le_floor.mpr h
  rcases roundHalfEven_cases y with ⟨e, _⟩ | ⟨e, _⟩ <;> rw [e] <;> omega

theorem roundHalfEven_near (y : ℚ) (r : Int) (h : |y - (r : ℚ)| < 1 / 2) :
    roundHalfEven y = r := by
  rw [abs_lt] at h
  have h1 := Int.floor_le y
  have h2 := Int.lt_floor_add_one y
  rcases roundHalfEven_cases y with ⟨e, hh⟩ | ⟨e, hh⟩
  · rw [e]
    have a : (⌊y⌋ : ℚ) < (r : ℚ) + 1 := by linarith
    have b : (r : ℚ) - 1 < (⌊y⌋ : ℚ) := by linarith
    have a' : ⌊y⌋ < r + 1 := by exact_mod_cast a
    have b' : r - 1 < ⌊y⌋ := by exact_mod_cast b
    omega
  · rw [e]
    have a : (⌊y⌋ : ℚ) + 1 < (r : ℚ) + 1 := by linarith
    have b : (r : ℚ) - 1 < (⌊y⌋ : ℚ) + 1 := by linarith
    have a' : ⌊y⌋ + 1 < r + 1 := by exact_mod_cast a
    have b' : r - 1 < ⌊y⌋ + 1 := by exact_mod_cast b
    omega

theorem roundHalfEven_int (n : Int) : roundHalfEven (n : ℚ) = n :=
  roundHalfEven_near _ n (by simp)

theorem roundHalfEven_lt (y : ℚ) (N : Int) (h : y < (N : ℚ) - 1 / 2) :
    roundHalfEven y ≤ N - 1 := by
  have h1 := Int.floor_le y
  rcases roundHalfEven_cases y with ⟨e, hh⟩ | ⟨e, hh⟩
  · rw [e]
    have a : (⌊y⌋ : ℚ) < (N : ℚ) := by linarith
    have a' : ⌊y⌋ < N := by exact_mod_cast a
    omega
  · rw [e]
    have a : (⌊y⌋ : ℚ) + 1 < (N : ℚ) := by linarith
    have a' : ⌊y⌋ + 1 < N := by exact_mod_cast a
    omega

theorem lt_roundHalfEven (y : ℚ) (N : Int) (h : (N : ℚ) + 1 / 2 < y) :
    N + 1 ≤ roundHalfEven y := by
  have h2 := Int.lt_floor_add_one y
  rcases roundHalfEven_cases y with ⟨e, hh⟩ | ⟨e, hh⟩
  · rw [e]
    have a : (N : ℚ) < (⌊y⌋ : ℚ) := by linarith
    have a' : N < ⌊y⌋ := by exact_mod_cast a
    omega
  · rw [e]
    have a : (N : ℚ) < (⌊y⌋ : ℚ) + 1 := by linarith
    have a' : N < ⌊y⌋ + 1 := by exact_mod_cast a
    omega

theorem log2_bounds (a : ℚ) (ha : 0 < a) :
    (2 : ℚ) ^ Int.log 2 a ≤ a ∧ a < (2 : ℚ) ^ (Int.log 2 a + 1) := by
  have h1 := Int.zpow_log_le_self (b := 2) (r := a) (by norm_num) ha
  have h2 := Int.lt_zpow_succ_log_self (b := 2) (by norm_num) a
  simpa using And.intro h1 h2

theorem log2_eq (a : ℚ) (e : Int) (h1 : (2 : ℚ) ^ e ≤ a) (h2 : a < (2 : ℚ) ^ (e + 1)) :
    Int.log 2 a = e := by
  have ha : 0 < a := lt_of_lt_of_le (by positivity) h1
  have i1 : e ≤ Int.log 2 a := by
    rw [← Int.zpow_le_iff_le_log (by norm_num) ha]
    simpa using h1
  have i2 : Int.log 2 a < e + 1 := by
    rw [← Int.lt_zpow_iff_log_lt (by norm_num) ha]
    simpa using h2
  omega

theorem log2_lt (a : ℚ) (e : Int) (ha : 0 < a) (h2 : a < (2 : ℚ) ^ e) : Int.log 2 a < e := by
  rw [← Int.lt_zpow_iff_log_lt (by norm_num) ha]
  simpa using h2


theorem ulpExp_ge (a : ℚ) : -1074 ≤ ulpExp a ∧ Int.log 2 a - 52 ≤ ulpExp a := by
  unfold ulpExp
  constructor <;> omega

theorem ulpExp_le_of_lt (a : ℚ) (E : Int) (ha : 0 < a) (h : a < (2 : ℚ) ^ E)
    (hE : -1021 ≤ E) : ulpExp a ≤ E - 53 := by
  have := log2_lt a E ha h
  unfold ulpExp
  omega

theorem zpow_neg_nat (n : ℕ) : (2 : ℚ) ^ (-(n : Int)) = ((2 : ℚ) ^ n)⁻¹ := by
  rw [zpow_neg, zpow_natCast]

theorem roundDouble_zero : roundDouble 0 = 0 := by
  unfold roundDouble
  simp

/-- A non-zero multiple of a power of two at or above the unit in the last place is
not changed by rounding. -/
theorem roundDouble_of_multiple (x : ℚ) (m k : Int) (hx : x = (m : ℚ) * (2 : ℚ) ^ k)
    (hk : ulpExp |x| ≤ k) : roundDouble x = x := by
  by_cases h0 : x = 0
  · rw [h0, roundDouble_zero]
  · unfold roundDouble
    rw [if_neg h0]
    generalize ulpExp |x| = q at hk ⊢
    obtain ⟨n, hn⟩ : ∃ n : ℕ, k = q + (n : Int) := ⟨(k - q).toNat, by omega⟩
    have hy : x / (2 : ℚ) ^ q = ((m * 2 ^ n : Int) : ℚ) := by
      rw [hx, hn, zpow_add₀ (by norm_num : (2 : ℚ) ≠ 0), zpow_natCast]
      push_cast
      field_simp
      ring
    rw [hy, roundHalfEven_int, ← hy]
    field_simp

theorem roundDouble_eval (x : ℚ) (e r : Int) (h1 : (2 : ℚ) ^ e ≤ |x|)
    (h2 : |x| < (2 : ℚ) ^ (e + 1))
    (hr : |x / (2 : ℚ) ^ (max e (-1022) - 52) - (r : ℚ)| < 1 / 2) :
    roundDouble x = (r : ℚ) * (2 : ℚ) ^ (max e (-1022) - 52) := by
  have hx : x ≠ 0 := by
    intro h
    rw [h, abs_zero] at h1
    exact absurd h1 (not_le.mpr (by positivity))
  have hq : ulpExp |x| = max e (-1022) - 52 := by
    unfold ulpExp
    rw [log2_eq |x| e h1 h2]
  unfold roundDouble
  rw [if_neg hx, hq, roundHalfEven_near _ r hr]

theorem roundDouble_le_int (x : ℚ) (K : Int) (hq : ulpExp |x| ≤ 0) (h : x ≤ (K : ℚ)) :
    roundDouble x ≤ (K : ℚ) := by
  by_cases h0 : x = 0
  · rw [h0, roundDouble_zero]; rw [h0] at h; exact h
  · unfold roundDouble
    rw [if_neg h0]
    obtain ⟨n, hn⟩ : ∃ n : ℕ, ulpExp |x| = -(n : Int) := ⟨(-ulpExp |x|).toNat, by omega⟩
    rw [hn, zpow_neg_nat]
    have hpos : (0 : ℚ) < (2 : ℚ) ^ n := by positivity
    have hy : x / ((2 : ℚ) ^ n)⁻¹ ≤ ((K * 2 ^ n : Int) : ℚ) := by
      push_cast
      rw [div_inv_eq_mul]
      exact mul_le_mul_of_nonneg_right h (le_of_lt hpos)
    have := roundHalfEven_le _ _ hy
    have hc : ((roundHalfEven (x / ((2 : ℚ) ^ n)⁻¹) : Int) : ℚ) ≤ ((K * 2 ^ n : Int) : ℚ) := by
      exact_mod_cast this
    push_cast at hc
    calc (roundHalfEven (x / ((2 : ℚ) ^ n)⁻¹) : ℚ) * ((2 : ℚ) ^ n)⁻¹
        ≤ ((K : ℚ) * (2 : ℚ) ^ n) * ((2 : ℚ) ^ n)⁻¹ :=
          mul_le_mul_of_nonneg_right hc (le_of_lt (inv_pos.mpr hpos))
      _ = (K : ℚ) := by field_simp

theorem int_le_roundDouble (x : ℚ) (K : Int) (hq : ulpExp |x| ≤ 0) (h : (K : ℚ) ≤ x) :
    (K : ℚ) ≤ roundDouble x := by
  by_cases h0 : x = 0
  · rw [h0, roundDouble_zero]; rw [h0] at h; exact h
  · unfold roundDouble
    rw [if_neg h0]
    obtain ⟨n, hn⟩ : ∃ n : ℕ, ulpExp |x| = -(n : Int) := ⟨(-ulpExp |x|).toNat, by omega⟩
    rw [hn, zpow_neg_nat]
    have hpos : (0 : ℚ) < (2 : ℚ) ^ n := by positivity
    have hy : ((K * 2 ^ n : Int) : ℚ) ≤ x / ((2 : ℚ) ^ n)⁻¹ := by
      push_cast
      rw [div_inv_eq_mul]
      exact mul_le_mul_of_nonneg_right h (le_of_lt hpos)
    have := le_roundHalfEven _ _ hy
    have hc : ((K * 2 ^ n : Int) : ℚ) ≤ ((roundHalfEven (x / ((2 : ℚ) ^ n)⁻¹) : Int) : ℚ) := by
      exact_mod_cast this
    push_cast at hc
    calc (K : ℚ) = ((K : ℚ) * (2 : ℚ) ^ n) * ((2 : ℚ) ^ n)⁻¹ := by field_simp
      _ ≤ (roundHalfEven (x / ((2 : ℚ) ^ n)⁻¹) : ℚ) * ((2 : ℚ) ^ n)⁻¹ :=
          mul_le_mul_of_nonneg_right hc (le_of_lt (inv_pos.mpr hpos))

theorem roundDouble_lt_1000 (x : ℚ) (h : |x| ≤ 1000 - 1000 * (2 : ℚ) ^ (-53 : Int)) :
    |roundDouble x| < 1000 := by
  by_cases h0 : x = 0
  · rw [h0, roundDouble_zero]; norm_num
  · have ha : 0 < |x| := abs_pos.mpr h0
    have h53 : (0 : ℚ) < (2 : ℚ) ^ (-53 : Int) := by positivity
    have hlt : |x| < (2 : ℚ) ^ (10 : Int) := by
      have : (2 : ℚ) ^ (10 : Int) = 1024 := by norm_num
      rw [this]; linarith
    have hq := ulpExp_le_of_lt |x| 10 ha hlt (by norm_num)
    unfold roundDouble
    rw [if_neg h0]
    obtain ⟨n, hn⟩ : ∃ n : ℕ, ulpExp |x| = -(n : Int) := ⟨(-ulpExp |x|).toNat, by omega⟩
    have hn43 : 43 ≤ n := by omega
    rw [hn, zpow_neg_nat]
    have hpos : (0 : ℚ) < (2 : ℚ) ^ n := by positivity
    have hpow : (2 : ℚ) ^ 43 ≤ (2 : ℚ) ^ n := pow_le_pow_right₀ (by norm_num) hn43
    rw [div_inv_eq_mul]
    have e53 : (2 : ℚ) ^ (-53 : Int) = 1 / 2 ^ 53 := by
      rw [zpow_neg]; norm_num
    rw [e53] at h
    obtain ⟨hlo, hhi⟩ := abs_le.mp h
    -- the scaled value stays more than one half away from 1000 * 2 ^ n
    have hgap : (1 : ℚ) / 2 < 1000 * (1 / 2 ^ 53) * (2 : ℚ) ^ n := by
      calc (1 : ℚ) / 2 < 1000 * (1 / 2 ^ 53) * (2 : ℚ) ^ 43 := by norm_num
        _ ≤ 1000 * (1 / 2 ^ 53) * (2 : ℚ) ^ n :=
            mul_le_mul_of_nonneg_left hpow (by norm_num)
    have hy1 : x * (2 : ℚ) ^ n < ((1000 * 2 ^ n : Int) : ℚ) - 1 / 2 := by
      push_cast
      have := mul_le_mul_of_nonneg_right hhi (le_of_lt hpos)
      nlinarith
    have hy2 : ((-(1000 * 2 ^ n) : Int) : ℚ) + 1 / 2 < x * (2 : ℚ) ^ n := by
      push_cast
      have := mul_le_mul_of_nonneg_right hlo (le_of_lt hpos)
      nlinarith
    have r1 := roundHalfEven_lt _ _ hy1
    have r2 := lt_roundHalfEven _ _ hy2
    have c1 : ((roundHalfEven (x * (2 : ℚ) ^ n) : Int) : ℚ) ≤ ((1000 * 2 ^ n - 1 : Int) : ℚ) := by
      exact_mod_cast r1
    have c2 : ((-(1000 * 2 ^ n) + 1 : Int) : ℚ) ≤ ((roundHalfEven (x * (2 : ℚ) ^ n) : Int) : ℚ) := by
      exact_mod_cast r2
    push_cast at c1 c2
    rw [abs_lt]
    have hinv : (0 : ℚ) < ((2 : ℚ) ^ n)⁻¹ := inv_pos.mpr hpos
    constructor
    · have := mul_le_mul_of_nonneg_right c2 (le_of_lt hinv)
      have e : (-(1000 * (2 : ℚ) ^ n) + 1) * ((2 : ℚ) ^ n)⁻¹ = -1000 + ((2 : ℚ) ^ n)⁻¹ := by
        field_simp
      rw [e] at this
      linarith
    · have := mul_le_mul_of_nonneg_right c1 (le_of_lt hinv)
      have e : (1000 * (2 : ℚ) ^ n - 1) * ((2 : ℚ) ^ n)⁻¹ = 1000 - ((2 : ℚ) ^ n)⁻¹ := by
        field_simp
      rw [e] at this
      linarith

theorem truncQ_intCast (z : Int) : truncQ (z : ℚ) = z := by
  unfold truncQ
  by_cases h : (0 : ℚ) ≤ (z : ℚ)
  · rw [if_pos h, Int.floor_intCast]
  · rw [if_neg h]
    have : -(z : ℚ) = ((-z : Int) : ℚ) := by push_cast; ring
    rw [this, Int.floor_intCast]
    omega

theorem truncQ_eq_zero (f : ℚ) (h : |f| < 1) : truncQ f = 0 := by
  rw [abs_lt] at h
  unfold truncQ
  by_cases h0 : 0 ≤ f
  · rw [if_pos h0, Int.floor_eq_iff]
    constructor <;> push_cast <;> linarith
  · rw [if_neg h0]
    have : ⌊-f⌋ = 0 := by
      rw [Int.floor_eq_iff]
      constructor <;> push_cast <;> linarith
    omega

/-- A double of magnitude below 1 is at most the largest double below 1. -/
theorem double_lt_one (g : ℚ) (hd : roundDouble g = g) (h : |g| < 1) :
    |g| ≤ 1 - (2 : ℚ) ^ (-53 : Int) := by
  have e53 : (2 : ℚ) ^ (-53 : Int) = 1 / 9007199254740992 := by
    rw [zpow_neg]; norm_num
  rw [e53]
  by_cases h0 : g = 0
  · rw [h0]; norm_num
  · have ha : 0 < |g| := abs_pos.mpr h0
    have hlog : Int.log 2 |g| < 0 := log2_lt |g| 0 ha (by simpa using h)
    by_cases he : Int.log 2 |g| = -1
    · have hq : ulpExp |g| = -53 := by
        unfold ulpExp; rw [he]; rfl
      unfold roundDouble at hd
      rw [if_neg h0, hq] at hd
      generalize roundHalfEven (g / (2 : ℚ) ^ (-53 : Int)) = r at hd
      rw [e53] at hd
      rw [← hd] at h ⊢
      rw [abs_mul, abs_of_pos (by norm_num : (0 : ℚ) < 1 / 9007199254740992)] at h ⊢
      have h1 : |(r : ℚ)| < 9007199254740992 := by
        have := (lt_div_iff₀ (by norm_num : (0 : ℚ) < 1 / 9007199254740992)).mpr h
        simpa using this
      have h2 : |r| < 9007199254740992 := by
        have : ((|r| : Int) : ℚ) < ((9007199254740992 : Int) : ℚ) := by
          push_cast; exact h1
        exact_mod_cast this
      have h3 : |r| ≤ 9007199254740991 := by omega
      have h4 : |(r : ℚ)| ≤ 9007199254740991 := by
        have : ((|r| : Int) : ℚ) ≤ ((9007199254740991 : Int) : ℚ) := by exact_mod_cast h3
        push_cast at this; exact this
      linarith
    · have hb := (log2_bounds |g| ha).2
      have hle : (2 : ℚ) ^ (Int.log 2 |g| + 1) ≤ (2 : ℚ) ^ (-1 : Int) :=
        zpow_le_zpow_right₀ (by norm_num) (by omega)
      have : (2 : ℚ) ^ (-1 : Int) = 1 / 2 := by norm_num
      rw [this] at hle
      linarith

/-- For a double `f` the difference `f - (int)f` is a double: the subtraction of the
code is exact. -/
theorem sub_truncQ_exact (f : ℚ) (hd : roundDouble f = f) :
    roundDouble (f - (truncQ f : ℚ)) = f - (truncQ f : ℚ) := by
  by_cases hi : truncQ f = 0
  · rw [hi]; simpa using hd
  · have h1 : 1 ≤ |f| := by
      by_contra hlt
      exact hi (truncQ_eq_zero f (not_le.mp hlt))
    have h0 : f ≠ 0 := by
      intro h; rw [h, abs_zero] at h1; norm_num at h1
    have ha : 0 < |f| := abs_pos.mpr h0
    have hlog : 0 ≤ Int.log 2 |f| := by
      rw [← Int.zpow_le_iff_le_log (by norm_num) ha]
      simpa using h1
    have hq : ulpExp |f| = Int.log 2 |f| - 52 := by
      unfold ulpExp; omega
    have hd' := hd
    unfold roundDouble at hd'
    rw [if_neg h0] at hd'
    generalize roundHalfEven (f / (2 : ℚ) ^ ulpExp |f|) = r at hd'
    by_cases hq0 : 0 ≤ ulpExp |f|
    · -- `f` is an integer, so the difference is zero
      obtain ⟨n, hn⟩ : ∃ n : ℕ, ulpExp |f| = (n : Int) := ⟨(ulpExp |f|).toNat, by omega⟩
      have hz : f = ((r * 2 ^ n : Int) : ℚ) := by
        rw [← hd', hn, zpow_natCast]; push_cast; ring
      rw [hz, truncQ_intCast, sub_self, roundDouble_zero]
    · obtain ⟨n, hn⟩ : ∃ n : ℕ, ulpExp |f| = -(n : Int) := ⟨(-ulpExp |f|).toNat, by omega⟩
      have hg : f - (truncQ f : ℚ)
          = ((r - truncQ f * 2 ^ n : Int) : ℚ) * (2 : ℚ) ^ ulpExp |f| := by
        have hp : (0 : ℚ) < (2 : ℚ) ^ n := by positivity
        have hf2 : f * (2 : ℚ) ^ n = (r : ℚ) := by
          rw [hn, zpow_neg_nat] at hd'
          rw [← hd']
          field_simp
        rw [hn, zpow_neg_nat]
        push_cast
        field_simp
        linarith
      refine roundDouble_of_multiple _ _ _ hg ?_
      by_cases hg0 : f - (truncQ f : ℚ) = 0
      · rw [hg0, abs_zero]
        unfold ulpExp
        simp only [Int.log_zero_right]
        omega
      · have := ulpExp_le_of_lt |f - (truncQ f : ℚ)| 0 (abs_pos.mpr hg0)
          (by simpa using abs_sub_truncQ_lt_one f) (by norm_num)
        omega

theorem ulpExp_zero : ulpExp |(0 : ℚ)| = -52 := by
  unfold ulpExp
  simp

/-- A multiple of `2^k` below `2^E` in magnitude is a double when `k` is at least the
unit in the last place of the binade below `2^E`. -/
theorem isDouble_of_multiple (x : ℚ) (m k E : Int) (hx : x = (m : ℚ) * (2 : ℚ) ^ k)
    (hlt : |x| < (2 : ℚ) ^ E) (hE : -1021 ≤ E) (hk : E - 53 ≤ k) (hE2 : E ≤ 1024) :
    isDouble x := by
  constructor
  · by_cases h0 : x = 0
    · rw [h0, roundDouble_zero]
    · refine roundDouble_of_multiple x m k hx ?_
      have := ulpExp_le_of_lt |x| E (abs_pos.mpr h0) hlt hE
      omega
  · exact lt_of_lt_of_le hlt (zpow_le_zpow_right₀ (by norm_num) hE2)

/-- An integer below `2^10` in magnitude is not changed by rounding. -/
theorem roundDouble_intCast (z : Int) (h : |(z : ℚ)| < (2 : ℚ) ^ (10 : Int)) :
    roundDouble (z : ℚ) = (z : ℚ) := by
  by_cases h0 : (z : ℚ) = 0
  · rw [h0, roundDouble_zero]
  · refine roundDouble_of_multiple (z : ℚ) z 0 (by simp) ?_
    have := ulpExp_le_of_lt |(z : ℚ)| 10 (abs_pos.mpr h0) h (by norm_num)
    omega

/-! ## Facts about the `%f` conversion, continued -/

/-- The thousandths the code computes for a double are a number of three digits. -/
theorem roundedThousandths_lt (f : ℚ) (hd : roundDouble f = f) :
    0 ≤ roundedThousandths f ∧ roundedThousandths f < 1000 := by
  unfold roundedThousandths
  have hg := sub_truncQ_exact f hd
  have h1 := double_lt_one _ hg (abs_sub_truncQ_lt_one f)
  have h2 : |(f - (truncQ f : ℚ)) * 1000| ≤ 1000 - 1000 * (2 : ℚ) ^ (-53 : Int) := by
    rw [abs_mul, abs_of_pos (by norm_num : (0 : ℚ) < 1000)]
    linarith
  have h3 := roundDouble_lt_1000 _ h2
  refine ⟨Int.floor_nonneg.mpr (abs_nonneg _), ?_⟩
  rw [Int.floor_lt]
  push_cast
  exact h3

/-- The thousandths the code computes are those of the exact product, or one more. -/
theorem roundedThousandths_near (f : ℚ) :
    truncThousandths f ≤ roundedThousandths f ∧
      roundedThousandths f ≤ truncThousandths f + 1 := by
  unfold roundedThousandths truncThousandths
  have hlt := abs_sub_truncQ_lt_one f
  have habs : |(f - (truncQ f : ℚ)) * 1000| = |f - (truncQ f : ℚ)| * 1000 := by
    rw [abs_mul, abs_of_pos (by norm_num : (0 : ℚ) < 1000)]
  rw [← habs]
  generalize (f - (truncQ f : ℚ)) * 1000 = p at habs ⊢
  have hp : |p| < 1000 := by rw [habs]; linarith
  have hq : ulpExp |p| ≤ 0 := by
    by_cases h0 : p = 0
    · rw [h0, ulpExp_zero]; norm_num
    · have := ulpExp_le_of_lt |p| 10 (abs_pos.mpr h0)
        (by have : (2 : ℚ) ^ (10 : Int) = 1024 := by norm_num
            rw [this]; linarith) (by norm_num)
      omega
  have hk1 := Int.floor_le |p|
  have hk2 := Int.lt_floor_add_one |p|
  by_cases h0 : 0 ≤ p
  · rw [abs_of_nonneg h0] at hk1 hk2 ⊢
    have a1 := int_le_roundDouble p ⌊p⌋ hq hk1
    have a2 := roundDouble_le_int p (⌊p⌋ + 1) hq (by push_cast; linarith)
    have hk0 : (0 : ℚ) ≤ (⌊p⌋ : ℚ) := by exact_mod_cast Int.floor_nonneg.mpr h0
    rw [abs_of_nonneg (le_trans hk0 a1)]
    exact ⟨Int.le_floor.mpr a1, (Int.floor_le_floor a2).trans_eq (Int.floor_intCast _)⟩
  · have hneg : p < 0 := lt_of_not_ge h0
    rw [abs_of_neg hneg] at hk1 hk2 ⊢
    have a1 := roundDouble_le_int p (-⌊-p⌋) hq (by push_cast; linarith)
    have a2 := int_le_roundDouble p (-(⌊-p⌋ + 1)) hq (by push_cast; linarith)
    have hk0 : (0 : ℚ) ≤ (⌊-p⌋ : ℚ) := by
      exact_mod_cast Int.floor_nonneg.mpr (by linarith : (0 : ℚ) ≤ -p)
    push_cast at a1 a2
    rw [abs_of_nonpos (by linarith)]
    refine ⟨Int.le_floor.mpr (by linarith), ?_⟩
    have : -roundDouble p ≤ ((⌊-p⌋ + 1 : Int) : ℚ) := by push_cast; linarith
    exact (Int.floor_le_floor this).trans_eq (Int.floor_intCast _)

/-- The text of the `%f` conversion of a double: integer part, `'.'`, and the three
digits of the thousandths the code computes. -/
theorem printf_f_text (f : ℚ) (hdbl : isDouble f)
    (hfit : -2147483648 ≤ truncQ f ∧ truncQ f < 2147483648) :
    zwasm_printf_f f = some (zwasm__itoa (truncQ f) ++
      46 :: threeDigits (roundedThousandths f).toNat) := by
  obtain ⟨hn0, hn1⟩ := roundedThousandths_lt f hdbl.1
  have hg := sub_truncQ_exact f hdbl.1
  have habs := truncQ_abs (roundDouble ((f - (truncQ f : ℚ)) * 1000))
  have hfr : (if truncQ (roundDouble ((f - (truncQ f : ℚ)) * 1000)) < 0
      then wrap32 (-(truncQ (roundDouble ((f - (truncQ f : ℚ)) * 1000))))
      else truncQ (roundDouble ((f - (truncQ f : ℚ)) * 1000))) = roundedThousandths f := by
    unfold roundedThousandths at hn0 hn1 ⊢
    rw [← habs] at hn0 hn1 ⊢
    by_cases hneg : truncQ (roundDouble ((f - (truncQ f : ℚ)) * 1000)) < 0
    · simp only [hneg, if_true] at hn0 hn1 ⊢
      rw [wrap32_id _ (by omega) (by omega)]
    · simp only [hneg, if_false]
  obtain ⟨n, hn⟩ := Int.eq_ofNat_of_zero_le hn0
  unfold zwasm_printf_f
  simp only [hdbl, hfit, and_self, if_true, hg, hfr]
  rw [hn] at hn1 ⊢
  have := pad_itoa n (by omega)
  simp only [Int.toNat_ofNat, List.append_assoc, List.singleton_append] at this ⊢
  rw [← this]
  simp

/-! ## Facts about the `%s` conversion -/

theorem printf_s_text (t j : List Nat) (hz : ∀ b ∈ t, b ≠ 0) :
    zwasm_printf_s (t ++ 0 :: j) = some t := by
  induction t with
  | nil => simp [zwasm_printf_s]
  | cons a t ih =>
    have ha : a ≠ 0 := hz a (by simp)
    have ht : ∀ b ∈ t, b ≠ 0 := fun b hb => hz b (by simp [hb])
    simp [zwasm_printf_s, ha, ih ht]

/-- The scan loop stops at the terminator of the pattern. -/
theorem printf_loop_zero (fmt out : List Nat) (args : List Arg) :
    zwasm_printf_loop (0 :: fmt) out args = some out := by
  unfold zwasm_printf_loop
  simp

/-- The scan loop on the pattern "%s": the buffer holds the text of the argument. -/
theorem printf_loop_s (t junk j : List Nat) (rest : List Arg) (hz : ∀ b ∈ t, b ≠ 0) :
    zwasm_printf_loop (37 :: 115 :: 0 :: junk) [] (Arg.str (t ++ 0 :: j) :: rest) = some t := by
  unfold zwasm_printf_loop
  simp [printf_s_text t j hz, printf_loop_zero]

theorem printf_of_stores (fmt : List Nat) (args : List Arg) (w : List Nat)
    (h : zwasm_printf_stores fmt args = some w) :
    zwasm_printf fmt args = if w.length ≤ 1024 then some (zwasm_log w) else none := by
  unfold zwasm_printf
  rw [h]

theorem stores_of_loop (fmt : List Nat) (args : List Arg) (out : List Nat)
    (h : zwasm_printf_loop fmt [] args = some out) :
    zwasm_printf_stores fmt args = some (out ++ [0]) := by
  unfold zwasm_printf_stores
  rw [h]; rfl

theorem log_text (t : List Nat) (hz : ∀ b ∈ t, b ≠ 0) : zwasm_log (t ++ [0]) = t := by
  unfold zwasm_log
  induction t with
  | nil => simp
  | cons a t ih =>
    have ha : a ≠ 0 := hz a (by simp)
    have ht : ∀ b ∈ t, b ≠ 0 := fun b hb => hz b (by simp [hb])
    simpa [List.takeWhile, ha] using ih ht

theorem replicate_65_nonzero (n : Nat) : ∀ b ∈ List.replicate n 65, b ≠ 0 := by
  intro b hb
  have := List.eq_of_mem_replicate hb
  omega

/-! ## The scan loop against the parts of the pattern -/

/-- The scan loop computes the rendering of the parts, as long as it fits below the
loop's limit of 1000 bytes. -/
theorem printf_loop_pieces (junk : List Nat) (n : Nat) :
    ∀ (t out : List Nat) (args : List Arg) (r : List Nat), t.length ≤ n →
      (∀ b ∈ t, b ≠ 0) → dangling t = false → render (pieces t) args = some r →
      (out ++ r).length < 1000 →
      zwasm_printf_loop (t ++ 0 :: junk) out args = some (out ++ r) := by
  induction n with
  | zero =>
    intro t out args r hl _ _ hr _
    have : t = [] := List.length_eq_zero.mp (by omega)
    subst this
    simp only [pieces, render, Option.some.injEq] at hr
    subst hr
    simp [printf_loop_zero]
  | succ n ih =>
    intro t out args r hl hz hd hr hlen
    cases t with
    | nil =>
      simp only [pieces, render, Option.some.injEq] at hr
      subst hr
      simp [printf_loop_zero]
    | cons c t =>
      have hc : c ≠ 0 := hz c (by simp)
      have hzt : ∀ b ∈ t, b ≠ 0 := fun b hb => hz b (by simp [hb])
      have hout : out.length < 1000 := by
        rw [List.length_append] at hlen; omega
      by_cases h37 : c = 37
      · subst h37
        cases t with
        | nil => simp [dangling] at hd
        | cons d t' =>
          have hd0 : d ≠ 0 := hzt d (by simp)
          have hzt' : ∀ b ∈ t', b ≠ 0 := fun b hb => hzt b (by simp [hb])
          have hd' : dangling t' = false := by simpa [dangling] using hd
          have hl' : t'.length ≤ n := by simp at hl; omega
          simp only [pieces, if_true, render] at hr
          rw [List.cons_append, List.cons_append]
          unfold zwasm_printf_loop
          simp only [hout, not_true_eq_false, or_false, if_true, hc, if_false]
          by_cases h100 : d = 100
          · simp only [h100, if_true] at hr ⊢
            cases args with
            | nil => simp [emit] at hr
            | cons a args' =>
              cases a with
              | int i =>
                simp only [emit] at hr
                obtain ⟨r', hr', rfl⟩ := Option.map_eq_some'.mp hr
                have := ih t' (out ++ zwasm__itoa i) args' r' hl' hzt' hd' hr'
                  (by simpa [List.append_assoc] using hlen)
                simpa [List.append_assoc] using this
              | str s => simp [emit] at hr
              | dbl f => simp [emit] at hr
          by_cases h115 : d = 115
          · simp only [h115, if_true, (by decide : ¬ (115 : Nat) = 100), if_false] at hr ⊢
            cases args with
            | nil => simp [emit] at hr
            | cons a args' =>
              cases a with
              | int i => simp [emit] at hr
              | str s =>
                simp only [emit] at hr
                cases hs : zwasm_printf_s s with
                | none => simp [hs] at hr
                | some o =>
                  simp only [hs, Option.map_some'] at hr
                  obtain ⟨r', hr', rfl⟩ := Option.map_eq_some'.mp hr
                  have := ih t' (out ++ o) args' r' hl' hzt' hd' hr'
                    (by simpa [List.append_assoc] using hlen)
                  simpa [List.append_assoc, hs] using this
              | dbl f => simp [emit] at hr
          by_cases h102 : d = 102
          · simp only [h102, if_true, (by decide : ¬ (102 : Nat) = 100),
              (by decide : ¬ (102 : Nat) = 115), if_false] at hr ⊢
            cases args with
            | nil => simp [emit] at hr
            | cons a args' =>
              cases a with
              | int i => simp [emit] at hr
              | str s => simp [emit] at hr
              | dbl f =>
                simp only [emit] at hr
                cases hs : zwasm_printf_f f with
                | none => simp [hs] at hr
                | some o =>
                  simp only [hs, Option.map_some'] at hr
                  obtain ⟨r', hr', rfl⟩ := Option.map_eq_some'.mp hr
                  have := ih t' (out ++ o) args' r' hl' hzt' hd' hr'
                    (by simpa [List.append_assoc] using hlen)
                  simpa [List.append_assoc, hs] using this
          · simp only [h100, h115, h102, if_false, emit] at hr ⊢
            obtain ⟨r', hr', rfl⟩ := Option.map_eq_some'.mp hr
            have := ih t' out args r' hl' hzt' hd' hr' (by simpa using hlen)
            simpa using this
      · unfold pieces at hr
        simp only [h37, if_false, render, emit] at hr
        obtain ⟨r', hr', rfl⟩ := Option.map_eq_some'.mp hr
        have hl' : t.length ≤ n := by simp at hl; omega
        have hd' : dangling t = false := by
          unfold dangling at hd
          simpa [h37] using hd
        rw [List.cons_append]
        unfold zwasm_printf_loop
        simp only [hout, not_true_eq_false, or_false, hc, h37, if_false]
        have := ih t (out ++ [c]) args r' hl' hzt hd' hr'
          (by simpa [List.append_assoc] using hlen)
        simpa [List.append_assoc] using this

theorem tmod10_bounds (a : Int) : -10 < Int.tmod a 10 ∧ Int.tmod a 10 < 10 := by
  cases a with
  | ofNat n =>
    have : Int.tmod (Int.ofNat n) 10 = ((n % 10 : Nat) : Int) := rfl
    rw [this]; omega
  | negSucc n =>
    have : Int.tmod (Int.negSucc n) 10 = -(((n + 1) % 10 : Nat) : Int) := rfl
    rw [this]; omega

theorem toByte_tmod_ne_zero (a : Int) : toByte (Int.tmod a 10 + 48) ≠ 0 := by
  have h := tmod10_bounds a
  unfold toByte
  rw [Int.emod_eq_of_lt (by omega) (by omega)]
  omega

theorem itoa_digits_nonzero (fuel : Nat) : ∀ (i : Int) (t : List Nat),
    (∀ b ∈ t, b ≠ 0) → ∀ b ∈ zwasm__itoa_digits fuel i t, b ≠ 0 := by
  induction fuel with
  | zero => intro i t ht; simpa [zwasm__itoa_digits] using ht
  | succ k ih =>
    intro i t ht
    unfold zwasm__itoa_digits
    by_cases hi : i = 0
    · simpa [hi] using ht
    · simp only [hi, if_false]
      apply ih
      intro b hb
      rcases List.mem_append.mp hb with h | h
      · exact ht b h
      · rw [List.mem_singleton] at h
        rw [h]; exact toByte_tmod_ne_zero i

theorem mem_ite_singleton {p : Prop} [Decidable p] {x b : Nat}
    (h : b ∈ (if p then [x] else [])) : b = x := by
  by_cases hp : p
  · simpa [hp] using h
  · simp [hp] at h

theorem itoa_nonzero (i : Int) : ∀ b ∈ zwasm__itoa i, b ≠ 0 := by
  intro b hb
  unfold zwasm__itoa at hb
  rcases List.mem_append.mp hb with h | h
  · have := mem_ite_singleton h
    omega
  · rw [List.mem_reverse] at h
    unfold zwasm__itoa_scratch at h
    refine itoa_digits_nonzero _ _ _ ?_ b h
    intro c hc
    have := mem_ite_singleton hc
    omega

theorem printf_s_nonzero : ∀ (s r : List Nat), zwasm_printf_s s = some r → ∀ b ∈ r, b ≠ 0 := by
  intro s
  induction s with
  | nil => intro r h; simp [zwasm_printf_s] at h
  | cons c s ih =>
    intro r h
    unfold zwasm_printf_s at h
    by_cases hc : c = 0
    · simp only [hc, if_true, Option.some.injEq] at h
      subst h; simp
    · simp only [hc, if_false] at h
      obtain ⟨r', hr', rfl⟩ := Option.map_eq_some'.mp h
      intro b hb
      rcases List.mem_cons.mp hb with h1 | h1
      · rw [h1]; exact hc
      · exact ih r' hr' b h1

theorem printf_f_nonzero (f : ℚ) (r : List Nat) (h : zwasm_printf_f f = some r) :
    ∀ b ∈ r, b ≠ 0 := by
  unfold zwasm_printf_f at h
  simp only at h
  split at h
  · simp only [Option.some.injEq] at h
    subst h
    intro b hb
    simp only [List.mem_append, List.mem_singleton] at hb
    rcases hb with (((hb | hb) | hb) | hb) | hb
    · exact itoa_nonzero _ b hb
    · omega
    · have := mem_ite_singleton hb
      omega
    · have := mem_ite_singleton hb
      omega
    · exact itoa_nonzero _ b hb
  · simp at h

theorem emit_nonzero (p : Piece) (args args' : List Arg) (o : List Nat)
    (hp : ∀ c, p = Piece.lit c → c ≠ 0) (h : emit p args = some (o, args')) :
    ∀ b ∈ o, b ≠ 0 := by
  cases p with
  | lit c =>
    simp only [emit, Option.some.injEq, Prod.mk.injEq] at h
    intro b hb
    rw [← h.1, List.mem_singleton] at hb
    rw [hb]; exact hp c rfl
  | skip c =>
    simp only [emit, Option.some.injEq, Prod.mk.injEq] at h
    intro b hb
    rw [← h.1] at hb; simp at hb
  | convD =>
    cases args with
    | nil => simp [emit] at h
    | cons a as =>
      cases a with
      | int i =>
        simp only [emit, Option.some.injEq, Prod.mk.injEq] at h
        rw [← h.1]; exact itoa_nonzero i
      | str s => simp [emit] at h
      | dbl f => simp [emit] at h
  | convS =>
    cases args with
    | nil => simp [emit] at h
    | cons a as =>
      cases a with
      | int i => simp [emit] at h
      | str s =>
        simp only [emit] at h
        obtain ⟨r', hr', he⟩ := Option.map_eq_some'.mp h
        simp only [Prod.mk.injEq] at he
        rw [← he.1]; exact printf_s_nonzero s r' hr'
      | dbl f => simp [emit] at h
  | convF =>
    cases args with
    | nil => simp [emit] at h
    | cons a as =>
      cases a with
      | int i => simp [emit] at h
      | str s => simp [emit] at h
      | dbl f =>
        simp only [emit] at h
        obtain ⟨r', hr', he⟩ := Option.map_eq_some'.mp h
        simp only [Prod.mk.injEq] at he
        rw [← he.1]; exact printf_f_nonzero f r' hr'

theorem lit_mem_pieces (n : Nat) : ∀ (t : List Nat), t.length ≤ n →
    ∀ c, Piece.lit c ∈ pieces t → c ∈ t := by
  induction n with
  | zero =>
    intro t hl c hc
    have : t = [] := List.length_eq_zero.mp (by omega)
    subst this
    simp [pieces] at hc
  | succ n ih =>
    intro t hl c hc
    cases t with
    | nil => simp [pieces] at hc
    | cons a t =>
      unfold pieces at hc
      by_cases h37 : a = 37
      · simp only [h37, if_true] at hc
        cases t with
        | nil => simp at hc
        | cons d t' =>
          simp only [List.mem_cons] at hc
          rcases hc with h | h
          · split_ifs at h
          · have := ih t' (by simp at hl; omega) c h
            simp [this]
      · simp only [h37, if_false, List.mem_cons, Piece.lit.injEq] at hc
        rcases hc with h | h
        · simp [h]
        · have := ih t (by simp at hl; omega) c h
          simp [this]

theorem render_nonzero : ∀ (ps : List Piece) (args : List Arg) (r : List Nat),
    (∀ c, Piece.lit c ∈ ps → c ≠ 0) → render ps args = some r → ∀ b ∈ r, b ≠ 0 := by
  intro ps
  induction ps with
  | nil =>
    intro args r _ h
    simp only [render, Option.some.injEq] at h
    subst h; simp
  | cons p ps ih =>
    intro args r hp h
    unfold render at h
    cases he : emit p args with
    | none => simp [he] at h
    | some oa =>
      obtain ⟨o, args'⟩ := oa
      simp only [he] at h
      obtain ⟨r', hr', rfl⟩ := Option.map_eq_some'.mp h
      have h1 := emit_nonzero p args args' o (fun c hc => hp c (by simp [hc])) he
      have h2 := ih args' r' (fun c hc => hp c (by simp [hc])) hr'
      intro b hb
      rcases List.mem_append.mp hb with h3 | h3
      · exact h1 b h3
      · exact h2 b h3

/-! ## Facts about the allocator -/

theorem ptr_add_fit (p n : Nat) (h : p + n < 4294967296) : ptr_add p n = p + n := by
  unfold ptr_add
  exact Nat.mod_eq_of_lt h

/-- The copy loop on two ranges that lie inside the address space and do not overlap:
the destination receives the source bytes and nothing else changes. -/
theorem memcpy_loop_spec (n : Nat) : ∀ (dp sp : Nat) (m : Nat → Nat),
    dp + n ≤ 4294967296 → sp + n ≤ 4294967296 → (sp + n ≤ dp ∨ dp + n ≤ sp) →
    (∀ k, k < n → memcpy_loop n dp sp m (dp + k) = m (sp + k)) ∧
    (∀ a, ¬ (dp ≤ a ∧ a < dp + n) → memcpy_loop n dp sp m a = m a) := by
  induction n with
  | zero =>
    intro dp sp m _ _ _
    exact ⟨fun k hk => absurd hk (Nat.not_lt_zero k), fun a _ => rfl⟩
  | succ n ih =>
    intro dp sp m hd hs hdisj
    unfold memcpy_loop
    rcases Nat.eq_zero_or_pos n with h0 | hpos
    · subst h0
      simp only [memcpy_loop]
      refine ⟨?_, ?_⟩
      · intro k hk
        have : k = 0 := by omega
        subst this
        simp
      · intro a ha
        have : a ≠ dp := by omega
        simp [this]
    · rw [ptr_add_fit dp 1 (by omega), ptr_add_fit sp 1 (by omega)]
      obtain ⟨ih1, ih2⟩ := ih (dp + 1) (sp + 1) (fun a => if a = dp then m sp else m a)
        (by omega) (by omega) (by omega)
      refine ⟨?_, ?_⟩
      · intro k hk
        rcases Nat.eq_zero_or_pos k with hk0 | hkpos
        · subst hk0
          rw [ih2 (dp + 0) (by omega)]
          simp
        · obtain ⟨k', rfl⟩ : ∃ k', k = k' + 1 := ⟨k - 1, by omega⟩
          have := ih1 k' (by omega)
          rw [show dp + (k' + 1) = dp + 1 + k' by omega, this]
          have hne : sp + 1 + k' ≠ dp := by omega
          simp only [hne, if_false]
          congr 1; omega
      · intro a ha
        rw [ih2 a (by omega)]
        have : a ≠ dp := by omega
        simp [this]

/-- Without a wrap of the address space the cursor ends at its start value plus the
bytes requested. -/
theorem run_cursor : ∀ (ops : List AllocOp) (st : Heap),
    st.heap_ptr + (ops.map AllocOp.request).sum < 4294967296 →
    (runAlloc st ops).heap_ptr = st.heap_ptr + (ops.map AllocOp.request).sum := by
  intro ops
  induction ops with
  | nil => intro st _; simp [runAlloc]
  | cons op ops ih =>
    intro st h
    simp only [List.map_cons, List.sum_cons] at h
    have hstep : (AllocOp.step st op).heap_ptr = st.heap_ptr + op.request := by
      cases op with
      | mem_init s sz => simp [AllocOp.step, AllocOp.request, zwasm_mem_init]
      | malloc size =>
        simp only [AllocOp.step, AllocOp.request, zwasm_malloc] at h ⊢
        exact ptr_add_fit _ _ (by omega)
      | realloc ptr n =>
        simp only [AllocOp.step, AllocOp.request, zwasm_realloc, zwasm_malloc] at h ⊢
        exact ptr_add_fit _ _ (by omega)
      | free ptr => simp [AllocOp.step, AllocOp.request, zwasm_free]
    have := ih (AllocOp.step st op) (by rw [hstep]; omega)
    simp only [runAlloc, List.foldl_cons, List.map_cons, List.sum_cons] at this ⊢
    rw [this, hstep]; omega

/-! ## Facts about the bounded copy loops -/

/-- One copy loop of `zwasm_dom_set_html` appends the text of its source, cut where
the buffer reaches 4095 bytes. -/
theorem dom_copy_spec (j : List Nat) : ∀ (t out : List Nat), (∀ b ∈ t, b ≠ 0) →
    zwasm_dom_copy (t ++ 0 :: j) out = some (out ++ t.take (4095 - out.length)) := by
  intro t
  induction t with
  | nil => intro out _; simp [zwasm_dom_copy]
  | cons a t ih =>
    intro out hz
    have ha : a ≠ 0 := hz a (by simp)
    have ht : ∀ b ∈ t, b ≠ 0 := fun b hb => hz b (by simp [hb])
    rw [List.cons_append]
    unfold zwasm_dom_copy
    by_cases hlen : out.length < 4095
    · simp only [ha, hlen, not_true_eq_false, or_self, if_false]
      rw [ih (out ++ [a]) ht]
      obtain ⟨m, hm⟩ : ∃ m, 4095 - out.length = m + 1 := ⟨4095 - out.length - 1, by omega⟩
      have hm' : 4095 - (out ++ [a]).length = m := by
        rw [List.length_append, List.length_singleton]; omega
      rw [hm, hm', List.take_succ_cons]
      simp
    · have h0 : 4095 - out.length = 0 := by omega
      simp [hlen, h0]

theorem take_append_take (X Y : List Nat) (n : Nat) :
    X.take n ++ Y.take (n - (X.take n).length) = (X ++ Y).take n := by
  rw [List.take_append_eq_append_take]
  congr 2
  rw [List.length_take]
  omega

theorem take_nonzero (X : List Nat) (n : Nat) (h : ∀ b ∈ X, b ≠ 0) :
    ∀ b ∈ X.take n, b ≠ 0 :=
  fun b hb => h b (List.mem_of_mem_take hb)

/-- The stores of `zwasm_dom_set_html`: the concatenation cut at 4095 bytes, then the
terminator. -/
theorem dom_stores_eq (id html j1 j2 : List Nat)
    (hid : ∀ b ∈ id, b ≠ 0) (hhtml : ∀ b ∈ html, b ≠ 0) :
    zwasm_dom_set_html_stores (id ++ 0 :: j1) (html ++ 0 :: j2)
      = some ((dom_s1 ++ id ++ dom_s2 ++ html ++ dom_s3).take 4095 ++ [0]) := by
  have h1 : ∀ b ∈ dom_s1, b ≠ 0 := by decide
  have h2 : ∀ b ∈ dom_s2, b ≠ 0 := by decide
  have h3 : ∀ b ∈ dom_s3, b ≠ 0 := by decide
  have e1 := dom_copy_spec [] dom_s1 [] h1
  have e2 := dom_copy_spec j1 id (dom_s1.take 4095) hid
  have e3 := dom_copy_spec [] dom_s2 ((dom_s1 ++ id).take 4095) h2
  have e4 := dom_copy_spec j2 html ((dom_s1 ++ id ++ dom_s2).take 4095) hhtml
  have e5 := dom_copy_spec [] dom_s3 ((dom_s1 ++ id ++ dom_s2 ++ html).take 4095) h3
  rw [take_append_take] at e2 e3 e4 e5
  simp only [List.nil_append, List.length_nil, Nat.sub_zero] at e1
  unfold zwasm_dom_set_html_stores
  simp only [e1, Option.some_bind, e2, e3, e4, e5, Option.map_some']

/-- The scan loop on a pattern without `'%'` appends the pattern text, cut where the
buffer reaches 1000 bytes. -/
theorem printf_loop_lit (junk : List Nat) (args : List Arg) : ∀ (t out : List Nat),
    (∀ b ∈ t, b ≠ 0) → 37 ∉ t →
    zwasm_printf_loop (t ++ 0 :: junk) out args = some (out ++ t.take (1000 - out.length)) := by
  intro t
  induction t with
  | nil => intro out _ _; simp [printf_loop_zero]
  | cons a t ih =>
    intro out hz hp
    have ha : a ≠ 0 := hz a (by simp)
    have ha' : a ≠ 37 := fun h => hp (by simp [h])
    have ht : ∀ b ∈ t, b ≠ 0 := fun b hb => hz b (by simp [hb])
    have hp' : 37 ∉ t := fun h => hp (by simp [h])
    rw [List.cons_append]
    unfold zwasm_printf_loop
    by_cases hlen : out.length < 1000
    · simp only [ha, ha', hlen, not_true_eq_false, or_self, if_false]
      rw [ih (out ++ [a]) ht hp']
      obtain ⟨m, hm⟩ : ∃ m, 1000 - out.length = m + 1 := ⟨1000 - out.length - 1, by omega⟩
      have hm' : 1000 - (out ++ [a]).length = m := by
        rw [List.length_append, List.length_singleton]; omega
      rw [hm, hm', List.take_succ_cons]
      simp
    · have h0 : 1000 - out.length = 0 := by omega
      simp [hlen, h0]

/-! ## Facts about `strlen` -/

theorem strlen_loop_spec : ∀ (s : List Nat) (k : Nat), 0 ∈ s →
    ∃ n, strlen_loop s k = some (k + n) ∧ n < s.length ∧ s[n]? = some 0 ∧
      (∀ i, i < n → ∃ b, s[i]? = some b ∧ b ≠ 0) ∧
      n = (s.takeWhile (fun b => b ≠ 0)).length := by
  intro s
  induction s with
  | nil => intro k h; simp at h
  | cons c s ih =>
    intro k h
    unfold strlen_loop
    by_cases hc : c = 0
    · subst hc
      exact ⟨0, by simp, by simp, by simp, by simp, by simp⟩
    · have hs : 0 ∈ s := by
        rcases List.mem_cons.mp h with h0 | h0
        · exact absurd h0.symm hc
        · exact h0
      obtain ⟨n, h1, h2, h3, h4, h5⟩ := ih (k + 1) hs
      refine ⟨n + 1, ?_, ?_, ?_, ?_, ?_⟩
      · simp only [hc, if_false, h1]
        congr 1; omega
      · simp; omega
      · simpa using h3
      · intro i hi
        cases i with
        | zero => exact ⟨c, by simp, hc⟩
        | succ i' =>
          obtain ⟨b, hb1, hb2⟩ := h4 i' (by omega)
          exact ⟨b, by simpa using hb1, hb2⟩
      · simp [List.takeWhile, hc, h5]

/-! ## Where the scan loop reads -/

/-- For a pattern that does not end in a lone `'%'`, the scan loop never looks at what
follows the terminator: its result is the same whatever is stored there. -/
theorem printf_loop_junk (j1 j2 : List Nat) (n : Nat) :
    ∀ (t out : List Nat) (args : List Arg), t.length ≤ n →
      (∀ b ∈ t, b ≠ 0) → dangling t = false →
      zwasm_printf_loop (t ++ 0 :: j1) out args = zwasm_printf_loop (t ++ 0 :: j2) out args := by
  induction n with
  | zero =>
    intro t out args hl _ _
    have : t = [] := List.length_eq_zero.mp (by omega)
    subst this
    simp [printf_loop_zero]
  | succ n ih =>
    intro t out args hl hz hd
    cases t with
    | nil => simp [printf_loop_zero]
    | cons c t =>
      have hzt : ∀ b ∈ t, b ≠ 0 := fun b hb => hz b (by simp [hb])
      by_cases h37 : c = 37
      · subst h37
        cases t with
        | nil => simp [dangling] at hd
        | cons d t' =>
          have hzt' : ∀ b ∈ t', b ≠ 0 := fun b hb => hzt b (by simp [hb])
          have hd' : dangling t' = false := by simpa [dangling] using hd
          have hl' : t'.length ≤ n := by simp at hl; omega
          have ih' := fun out args => ih t' out args hl' hzt' hd'
          show zwasm_printf_loop (37 :: d :: (t' ++ 0 :: j1)) out args
            = zwasm_printf_loop (37 :: d :: (t' ++ 0 :: j2)) out args
          simp only [zwasm_printf_loop, ↓reduceIte, ih']
      · have hl' : t.length ≤ n := by simp at hl; omega
        have hd' : dangling t = false := by
          unfold dangling at hd
          simpa [h37] using hd
        have ih' := fun out args => ih t out args hl' hzt hd'
        show zwasm_printf_loop (c :: (t ++ 0 :: j1)) out args
          = zwasm_printf_loop (c :: (t ++ 0 :: j2)) out args
        unfold zwasm_printf_loop
        simp only [h37, if_false, ih']

/-- The scan loop on the bytes "%", 0, "%s", 0: the `'%'` swallows the terminator and
the loop goes on to convert the `%s` stored after it. -/
theorem printf_loop_trailing (t j : List Nat) (rest : List Arg) (hz : ∀ b ∈ t, b ≠ 0) :
    zwasm_printf_loop [37, 0, 37, 115, 0] [] (Arg.str (t ++ 0 :: j) :: rest) = some t := by
  unfold zwasm_printf_loop
  simp only [List.length_nil, (by decide : (0 : Nat) < 1000), not_true_eq_false, or_false,
    (by decide : ¬ (37 : Nat) = 0), if_false, if_true, (by decide : ¬ (0 : Nat) = 100),
    (by decide : ¬ (0 : Nat) = 115), (by decide : ¬ (0 : Nat) = 102)]
  exact printf_loop_s t [] j rest hz

/-! ## How many bytes a conversion stores -/

theorem itoa_digits_length (fuel : Nat) : ∀ (d : Nat) (i : Int) (t : List Nat),
    i.natAbs < 10 ^ d → (zwasm__itoa_digits fuel i t).length ≤ t.length + d := by
  induction fuel with
  | zero => intro d i t _; simp [zwasm__itoa_digits]
  | succ k ih =>
    intro d i t hd
    unfold zwasm__itoa_digits
    by_cases hi : i = 0
    · simp [hi]
    · simp only [hi, if_false]
      cases d with
      | zero =>
        have : i.natAbs = 0 := by simpa using hd
        exact absurd (Int.natAbs_eq_zero.mp this) hi
      | succ d' =>
        have hlt : (Int.tdiv i 10).natAbs < 10 ^ d' := by
          rw [Int.natAbs_tdiv]
          rw [pow_succ] at hd
          exact Nat.div_lt_of_lt_mul (by simpa [Nat.mul_comm] using hd)
        have := ih d' (Int.tdiv i 10) (t ++ [toByte (Int.tmod i 10 + 48)]) hlt
        rw [List.length_append, List.length_singleton] at this
        omega

/-- For every value the sign step can leave, `zwasm__itoa` fills at most `t[0..9]` of
its scratch array. -/
theorem itoa_scratch_length (i : Int) (h : i.natAbs ≤ 2147483648) :
    (zwasm__itoa_scratch i).length ≤ 10 := by
  unfold zwasm__itoa_scratch
  by_cases hi : 0 = i
  · subst hi
    simp [zwasm__itoa_digits]
  · simp only [hi, if_false]
    have := itoa_digits_length i.natAbs 10 i [] (by omega)
    simpa using this

theorem wrap32_range (x : Int) : -2147483648 ≤ wrap32 x ∧ wrap32 x < 2147483648 := by
  unfold wrap32
  omega

/-- For every `int`, `zwasm__itoa` stores at most 11 bytes. -/
theorem itoa_length (i : Int) (hlo : -2147483648 ≤ i) (hhi : i < 2147483648) :
    (zwasm__itoa i).length ≤ 11 := by
  unfold zwasm__itoa
  rw [List.length_append, List.length_reverse]
  by_cases hi : i < 0
  · have hw := wrap32_range (-i)
    have := itoa_scratch_length (wrap32 (-i)) (by omega)
    simp only [hi, if_true, List.length_singleton]
    omega
  · have := itoa_scratch_length i (by omega)
    simp only [hi, if_false, List.length_nil]
    omega

/-- The `%f` conversion stores at most 15 bytes. -/
theorem printf_f_length (f : ℚ) (r : List Nat) (h : zwasm_printf_f f = some r) :
    r.length ≤ 15 := by
  by_cases hg : isDouble f ∧ -2147483648 ≤ truncQ f ∧ truncQ f < 2147483648
  · rw [printf_f_text f hg.1 hg.2] at h
    simp only [Option.some.injEq] at h
    subst h
    have := itoa_length (truncQ f) hg.2.1 hg.2.2
    simp only [List.length_append, List.length_cons, threeDigits, List.length_nil]
    omega
  · unfold zwasm_printf_f at h
    simp only [hg, if_false] at h
    exact absurd h (by simp)

/-- For a pattern without a `%s` conversion that does not end in a lone `'%'`, and
`int` arguments in range, the write cursor never passes `buf + 1014`. -/
theorem printf_no_s_bound (junk : List Nat) (n : Nat) :
    ∀ (t out : List Nat) (args : List Arg) (res : List Nat), t.length ≤ n →
      (∀ b ∈ t, b ≠ 0) → dangling t = false → Piece.convS ∉ pieces t →
      (∀ i, Arg.int i ∈ args → -2147483648 ≤ i ∧ i < 2147483648) →
      out.length ≤ 1014 →
      zwasm_printf_loop (t ++ 0 :: junk) out args = some res → res.length ≤ 1014 := by
  induction n with
  | zero =>
    intro t out args res hl _ _ _ _ ho h
    have : t = [] := List.length_eq_zero.mp (by omega)
    subst this
    simp only [List.nil_append, printf_loop_zero, Option.some.injEq] at h
    subst h; exact ho
  | succ n ih =>
    intro t out args res hl hz hd hs ha ho h
    cases t with
    | nil =>
      simp only [List.nil_append, printf_loop_zero, Option.some.injEq] at h
      subst h; exact ho
    | cons c t =>
      have hc : c ≠ 0 := hz c (by simp)
      have hzt : ∀ b ∈ t, b ≠ 0 := fun b hb => hz b (by simp [hb])
      by_cases hlen : out.length < 1000
      swap
      · rw [List.cons_append] at h
        unfold zwasm_printf_loop at h
        simp only [hlen, not_false_eq_true, or_true, if_true, Option.some.injEq] at h
        subst h; exact ho
      by_cases h37 : c = 37
      · subst h37
        cases t with
        | nil => simp [dangling] at hd
        | cons d t' =>
          have hzt' : ∀ b ∈ t', b ≠ 0 := fun b hb => hzt b (by simp [hb])
          have hd' : dangling t' = false := by simpa [dangling] using hd
          have hl' : t'.length ≤ n := by simp at hl; omega
          simp only [pieces, if_true, List.mem_cons, not_or] at hs
          obtain ⟨hs1, hs2⟩ := hs
          have h115 : d ≠ 115 := by
            intro h115
            simp [h115] at hs1
          rw [List.cons_append, List.cons_append] at h
          unfold zwasm_printf_loop at h
          simp only [hlen, not_true_eq_false, or_false, if_true, hc, if_false, h115] at h
          by_cases h100 : d = 100
          · simp only [h100, if_true] at h
            cases args with
            | nil => simp at h
            | cons a args' =>
              cases a with
              | int i =>
                simp only at h
                have hi := ha i (by simp)
                have hlen' := itoa_length i hi.1 hi.2
                exact ih t' (out ++ zwasm__itoa i) args' res hl' hzt' hd' hs2
                  (fun k hk => ha k (by simp [hk]))
                  (by rw [List.length_append]; omega) h
              | str s => simp at h
              | dbl f => simp at h
          by_cases h102 : d = 102
          · simp only [h102, if_true, (by decide : ¬ (102 : Nat) = 100), if_false] at h
            cases args with
            | nil => simp at h
            | cons a args' =>
              cases a with
              | int i => simp at h
              | str s => simp at h
              | dbl f =>
                simp only at h
                cases hf : zwasm_printf_f f with
                | none => simp [hf] at h
                | some r =>
                  simp only [hf] at h
                  have hlen' := printf_f_length f r hf
                  exact ih t' (out ++ r) args' res hl' hzt' hd' hs2
                    (fun k hk => ha k (by simp [hk]))
                    (by rw [List.length_append]; omega) h
          · simp only [h100, h102, if_false] at h
            exact ih t' out args res hl' hzt' hd' hs2 ha ho h
      · have hl' : t.length ≤ n := by simp at hl; omega
        have hd' : dangling t = false := by
          unfold dangling at hd
          simpa [h37] using hd
        have hs' : Piece.convS ∉ pieces t := by
          unfold pieces at hs
          simp only [h37, if_false, List.mem_cons, not_or] at hs
          exact hs.2
        rw [List.cons_append] at h
        unfold zwasm_printf_loop at h
        simp only [hlen, not_true_eq_false, or_false, hc, h37, if_false] at h
        exact ih t (out ++ [c]) args res hl' hzt hd' hs' ha
          (by rw [List.length_append, List.length_singleton]; omega) h

/-! ## Facts about the input table -/

theorem key_down_on_key (c c' : Int) (v : Bool) (keys : Fin 256 → Bool)
    (hc0 : 0 ≤ c) (hc1 : c < 256) :
    zwasm_key_down c (zwasm_on_key c' v keys) = if c' = c then v else zwasm_key_down c keys := by
  have hc : c ≥ 0 ∧ c < 256 := ⟨hc0, hc1⟩
  unfold zwasm_key_down zwasm_on_key
  simp only [hc, and_self, dite_true]
  by_cases hc' : c' ≥ 0 ∧ c' < 256
  · simp only [hc', and_self, dite_true]
    by_cases heq : c' = c
    · subst heq; simp
    · have hne : (⟨c.toNat, by omega⟩ : Fin 256) ≠ ⟨c'.toNat, by omega⟩ := by
        intro h
        have := Fin.mk.inj h
        omega
      simp [Function.update_noteq hne, heq]
  · have heq : c' ≠ c := by
      intro h; subst h; exact hc' hc
    simp [hc', heq]

theorem key_events_level (c : Int) (hc0 : 0 ≤ c) (hc1 : c < 256) (keys : Fin 256 → Bool) :
    ∀ events : List (Int × Bool),
      zwasm_key_down c (keyEvents keys events)
        = match (events.filter (fun e => e.1 = c)).getLast? with
          | some e => e.2
          | none => zwasm_key_down c keys := by
  intro events
  induction events using List.reverseRecOn with
  | nil => simp [keyEvents]
  | append_singleton es e ih =>
    have hrun : keyEvents keys (es ++ [e]) = zwasm_on_key e.1 e.2 (keyEvents keys es) := by
      simp [keyEvents, List.foldl_append]
    rw [hrun, key_down_on_key c e.1 e.2 _ hc0 hc1, List.filter_append]
    by_cases he : e.1 = c
    · simp [he, List.filter_cons]
    · simp [he, List.filter_cons, ih]

/-! ## Facts about the bouncer -/

/-- During the first 60 frames no wall is reached: the box moves 4 units per frame on
both axes. -/
theorem frames_eq (k : Nat) (hk : k ≤ 60) :
    frames k = { x := 10 + 4 * (k : ℚ), y := 10 + 4 * (k : ℚ), dx := 4, dy := 4 } := by
  induction k with
  | zero => simp [frames, bouncer_start]
  | succ k ih =>
    have hk' : (k : ℚ) ≤ 59 := by
      have : k ≤ 59 := by omega
      exact_mod_cast this
    have hk0 : (0 : ℚ) ≤ (k : ℚ) := Nat.cast_nonneg k
    unfold frames
    rw [ih (by omega)]
    unfold on_frame size width height
    have hx : ¬ (10 + 4 * (k : ℚ) + 4 ≤ 0 ∨ 10 + 4 * (k : ℚ) + 4 + 50 ≥ 600) := by
      intro h; rcases h with h | h <;> linarith
    have hy : ¬ (10 + 4 * (k : ℚ) + 4 ≤ 0 ∨ 10 + 4 * (k : ℚ) + 4 + 50 ≥ 400) := by
      intro h; rcases h with h | h <;> linarith
    simp only [hx, hy, if_false]
    push_cast
    congr 1 <;> ring

/-! ## Reading the text of the `%f` conversion -/

theorem itoa_decodes (i : Int) (hlo : -2147483648 < i) (hhi : i < 2147483648) :
    decodeDec (zwasm__itoa i) = some i := by
  have hd := itoa_scratch_isDigits i.natAbs
  have hv := itoa_scratch_value i.natAbs
  rw [itoa_eq i hlo hhi]
  by_cases hi : i < 0
  · simp only [hi, if_true, List.singleton_append]
    rw [decodeDec_minus _ hd, hv]
    congr 1; omega
  · simp only [hi, if_false, List.nil_append]
    rw [decodeDec_digits _ hd, hv]
    congr 1; omega

theorem itoa_no_dot (i : Int) (hlo : -2147483648 < i) (hhi : i < 2147483648) :
    ∀ b ∈ zwasm__itoa i, b ≠ 46 := by
  have hd := itoa_scratch_isDigits i.natAbs
  rw [itoa_eq i hlo hhi]
  intro b hb
  rcases List.mem_append.mp hb with h | h
  · have := mem_ite_singleton h
    omega
  · have := hd.2 b h
    unfold isDigit at this
    omega

theorem itoa_head (i : Int) (hlo : -2147483648 < i) (hhi : i < 2147483648) (rest : List Nat) :
    (zwasm__itoa i ++ rest).head? = some 45 ↔ i < 0 := by
  have hd := itoa_scratch_isDigits i.natAbs
  rw [itoa_eq i hlo hhi]
  by_cases hi : i < 0
  · simp [hi]
  · simp only [hi, if_false, List.nil_append, iff_false]
    cases hsc : (zwasm__itoa_scratch ((i.natAbs : Nat) : Int)).reverse with
    | nil => exact absurd hsc hd.1
    | cons a l =>
      have := hd.2 a (by rw [hsc]; simp)
      unfold isDigit at this
      simp only [List.cons_append, List.head?_cons, Option.some.injEq]
      omega

theorem takeWhile_dot (A B : List Nat) (h : ∀ b ∈ A, b ≠ 46) :
    (A ++ 46 :: B).takeWhile (fun b => b ≠ 46) = A ∧
      ((A ++ 46 :: B).dropWhile (fun b => b ≠ 46)).drop 1 = B := by
  induction A with
  | nil => simp
  | cons a A ih =>
    have ha : a ≠ 46 := h a (by simp)
    have hA : ∀ b ∈ A, b ≠ 46 := fun b hb => h b (by simp [hb])
    obtain ⟨h1, h2⟩ := ih hA
    constructor
    · simpa [List.takeWhile, ha] using h1
    · simpa [List.dropWhile, ha] using h2

theorem threeDigits_reads (n : Nat) (h : n < 1000) :
    isDigits (threeDigits n) ∧ (threeDigits n).length = 3 ∧
      decodeDigits (threeDigits n) = n := by
  refine ⟨⟨by simp [threeDigits], ?_⟩, rfl, ?_⟩
  · intro b hb
    simp only [threeDigits, List.mem_cons, List.mem_singleton, List.not_mem_nil, or_false] at hb
    unfold isDigit
    omega
  · simp only [decodeDigits, threeDigits, List.foldl_cons, List.foldl_nil]
    omega

theorem truncQ_milli (f : ℚ) (hs : 0 ≤ f ∨ f ≤ -1) :
    truncQ (f * 1000) =
      if truncQ f < 0 then truncQ f * 1000 - truncThousandths f
      else truncQ f * 1000 + truncThousandths f := by
  unfold truncThousandths truncQ
  by_cases hf : 0 ≤ f
  · have h1 : (0 : ℚ) ≤ f * 1000 := by positivity
    have h2 : ¬ (⌊f⌋ < 0) := not_lt.mpr (Int.floor_nonneg.mpr hf)
    have h3 : (0 : ℚ) ≤ f - (⌊f⌋ : ℚ) := sub_nonneg.mpr (Int.floor_le f)
    simp only [hf, h1, if_true, h2, if_false, abs_of_nonneg h3]
    have : (f - (⌊f⌋ : ℚ)) * 1000 = f * 1000 - ((⌊f⌋ * 1000 : Int) : ℚ) := by
      push_cast; ring
    rw [this, Int.floor_sub_int]
    ring
  · have hf' : f ≤ -1 := by
      rcases hs with h | h
      · exact absurd h hf
      · exact h
    have h1 : ¬ ((0 : ℚ) ≤ f * 1000) := by
      intro h; linarith
    have h2 : -⌊-f⌋ < 0 := by
      have : (1 : Int) ≤ ⌊-f⌋ := Int.le_floor.mpr (by push_cast; linarith)
      omega
    have h3 : f - ((-⌊-f⌋ : Int) : ℚ) ≤ 0 := by
      have := Int.floor_le (-f)
      push_cast; linarith
    simp only [hf, h1, if_false, h2, if_true, abs_of_nonpos h3]
    have : -(f - ((-⌊-f⌋ : Int) : ℚ)) * 1000 = -(f * 1000) - ((⌊-f⌋ * 1000 : Int) : ℚ) := by
      push_cast; ring
    rw [this, Int.floor_sub_int]
    ring

/-- For a double `f ≥ 0` or `f ≤ -1` (integer part above the minimum of `int`) the text
of the `%f` conversion carries the sign of `f` and reads as `f` truncated toward zero to
three fractional digits, or as one thousandth further from zero. -/
theorem printf_f_reads (f : ℚ) (hdbl : isDouble f) (hlo : -2147483648 < truncQ f)
    (hhi : truncQ f < 2147483648) (hs : 0 ≤ f ∨ f ≤ -1) :
    ∃ r n, zwasm_printf_f f = some r ∧ decodeMilli r = some n ∧
      (n = truncQ (f * 1000) ∨
        n = truncQ (f * 1000) + (if truncQ f < 0 then -1 else 1)) := by
  obtain ⟨hn0, hn1⟩ := roundedThousandths_lt f hdbl.1
  obtain ⟨hk1, hk2⟩ := roundedThousandths_near f
  obtain ⟨n, hn⟩ := Int.eq_ofNat_of_zero_le hn0
  have hn' : (roundedThousandths f).toNat = n := by rw [hn]; rfl
  obtain ⟨d1, d2, d3⟩ := threeDigits_reads n (by omega)
  obtain ⟨t1, t2⟩ := takeWhile_dot (zwasm__itoa (truncQ f)) (threeDigits n)
    (itoa_no_dot _ hlo hhi)
  have hm := truncQ_milli f hs
  refine ⟨_, if truncQ f < 0 then truncQ f * 1000 - (n : Int) else truncQ f * 1000 + (n : Int),
    printf_f_text f hdbl ⟨le_of_lt hlo, hhi⟩, ?_, ?_⟩
  · rw [hn']
    unfold decodeMilli
    rw [t1, t2, itoa_decodes _ hlo hhi]
    simp only [d1, d2, and_self, if_true, d3]
    by_cases hneg : truncQ f < 0
    · rw [if_pos ((itoa_head _ hlo hhi _).mpr hneg), if_pos hneg]
    · rw [if_neg (fun h => hneg ((itoa_head _ hlo hhi _).mp h)), if_neg hneg]
  · rw [hm]
    by_cases hneg : truncQ f < 0
    · simp only [hneg, if_true]
      omega
    · simp only [hneg, if_false]
      omega

/-! ## The claims -/

/-- C1, evaluated where it fails: the pattern "%s" with a terminated string of
1500 bytes `'A'`.  The copy loop of the `%s` conversion stores all 1500 bytes and
line 335 stores the terminator at `buf[1500]`, so bytes are stored at the indices
1024..1500, outside `char buf[1024]`; nothing is truncated. -/
theorem printf_s_overflow :
    zwasm_printf_stores [37, 115, 0] [Arg.str (List.replicate 1500 65 ++ [0])]
        = some (List.replicate 1500 65 ++ [0]) ∧
      1024 < (List.replicate 1500 65 ++ [0]).length ∧
      zwasm_printf [37, 115, 0] [Arg.str (List.replicate 1500 65 ++ [0])] = none := by
  have hs := stores_of_loop _ _ _
    (printf_loop_s (List.replicate 1500 65) [] [] [] (replicate_65_nonzero 1500))
  have hl : (List.replicate 1500 65 ++ [0]).length = 1500 + 1 := by
    rw [List.length_append, List.length_replicate, List.length_singleton]
  refine ⟨hs, by omega, ?_⟩
  rw [printf_of_stores _ _ _ hs, if_neg (by omega)]

/-- C2 as stated fails at n = 1024: the 1024 bytes of the text fill `buf[0..1023]`
and the terminator is stored at `buf[1024]`, outside the buffer. -/
theorem printf_s_full_buffer :
    (List.replicate 1024 65).length ≤ 1024 ∧
      (∀ b ∈ List.replicate 1024 65, b ≠ 0) ∧
      zwasm_printf_stores [37, 115, 0] [Arg.str (List.replicate 1024 65 ++ [0])]
        = some (List.replicate 1024 65 ++ [0]) ∧
      (List.replicate 1024 65 ++ [0]).length = 1025 ∧
      zwasm_printf [37, 115, 0] [Arg.str (List.replicate 1024 65 ++ [0])] = none := by
  have hs := stores_of_loop _ _ _
    (printf_loop_s (List.replicate 1024 65) [] [] [] (replicate_65_nonzero 1024))
  have hl : (List.replicate 1024 65 ++ [0]).length = 1024 + 1 := by
    rw [List.length_append, List.length_replicate, List.length_singleton]
  refine ⟨by rw [List.length_replicate], replicate_65_nonzero 1024, hs, hl, ?_⟩
  rw [printf_of_stores _ _ _ hs, if_neg (by omega)]

/-- C2, amended: for every terminated text `t` of length n ≤ 1023, whatever follows
the terminators in memory and whatever further arguments are passed, the pattern
"%s" makes `zwasm_printf` store exactly the n bytes of `t` followed by the
terminator, n+1 bytes in all, inside the buffer, and `t` is the text handed to
`zwasm_log`. -/
theorem printf_s_exact (t junk j : List Nat) (rest : List Arg)
    (hz : ∀ b ∈ t, b ≠ 0) (hn : t.length ≤ 1023) :
    zwasm_printf_stores (37 :: 115 :: 0 :: junk) (Arg.str (t ++ 0 :: j) :: rest)
        = some (t ++ [0]) ∧
      (t ++ [0]).length = t.length + 1 ∧
      zwasm_printf (37 :: 115 :: 0 :: junk) (Arg.str (t ++ 0 :: j) :: rest) = some t := by
  have hs := stores_of_loop _ _ _ (printf_loop_s t junk j rest hz)
  have hl : (t ++ [0]).length = t.length + 1 := by
    rw [List.length_append, List.length_singleton]
  refine ⟨hs, hl, ?_⟩
  rw [printf_of_stores _ _ _ hs, if_pos (by omega), log_text t hz]

/-- C2 amended, on the call of example_0.c: "%s" with "Bare Metal WASM". -/
theorem printf_s_exact_witness :
    zwasm_printf [37, 115, 0]
        [Arg.str [66, 97, 114, 101, 32, 77, 101, 116, 97, 108, 32, 87, 65, 83, 77, 0]]
      = some [66, 97, 114, 101, 32, 77, 101, 116, 97, 108, 32, 87, 65, 83, 77] :=
  (printf_s_exact [66, 97, 114, 101, 32, 77, 101, 116, 97, 108, 32, 87, 65, 83, 77] [] [] []
    (by decide) (by decide)).2.2

/-- C3: for every `int` `i` other than the minimum, `zwasm__itoa` writes an optional
`'-'` followed by a non-empty run of digits `'0'..'9'`, and decoding that text as a
signed decimal number gives back `i`; 42 is written as "42" and 0 as "0". -/
theorem itoa_roundtrip (i : Int) (hlo : -2147483648 < i) (hhi : i < 2147483648) :
    (∃ ds, isDigits ds ∧ zwasm__itoa i = (if i < 0 then [45] else []) ++ ds) ∧
    decodeDec (zwasm__itoa i) = some i ∧
    zwasm__itoa 42 = [52, 50] ∧ zwasm__itoa 0 = [48] := by
  have hd := itoa_scratch_isDigits i.natAbs
  have hv := itoa_scratch_value i.natAbs
  refine ⟨⟨_, hd, itoa_eq i hlo hhi⟩, ?_, by decide, by decide⟩
  rw [itoa_eq i hlo hhi]
  by_cases hi : i < 0
  · simp only [hi, if_true, List.singleton_append]
    rw [decodeDec_minus _ hd, hv]
    congr 1; omega
  · simp only [hi, if_false, List.nil_append]
    rw [decodeDec_digits _ hd, hv]
    congr 1; omega

/-- C3 at `i = -2147483647`, the most negative value the claim covers. -/
theorem itoa_roundtrip_witness :
    ((-2147483648 : Int) < -2147483647 ∧ (-2147483647 : Int) < 2147483648) ∧
      decodeDec (zwasm__itoa (-2147483647)) = some (-2147483647) :=
  ⟨⟨by decide, by decide⟩, (itoa_roundtrip (-2147483647) (by decide) (by decide)).2.1⟩

/-- C4 as stated fails twice. At f = -1.25 the code emits "-1.250", the fraction digits
of `(int)((f − (int)f) × 1000)` negated, while `floor(|f − floor(f)| × 1000)` is 750.
At the double nearest to 0.009, which is 5188146770730811 / 2^59, the product
`(f − 0) × 1000` rounds up to the double 9, so the code emits "0.009", while
`floor(|f − floor(f)| × 1000)` is 8. -/
theorem printf_f_negative :
    (isDouble (-5 / 4) ∧ -2147483648 ≤ truncQ (-5 / 4) ∧ truncQ (-5 / 4) < 2147483648) ∧
      zwasm_printf_f (-5 / 4) = some ([45, 49] ++ 46 :: [50, 53, 48]) ∧
      threeDigits (statedThousandths (-5 / 4)).toNat = [55, 53, 48] ∧
      (isDouble (5188146770730811 / 576460752303423488) ∧
        -2147483648 ≤ truncQ (5188146770730811 / 576460752303423488) ∧
        truncQ (5188146770730811 / 576460752303423488) < 2147483648) ∧
      zwasm_printf_f (5188146770730811 / 576460752303423488)
        = some ([48] ++ 46 :: [48, 48, 57]) ∧
      threeDigits (statedThousandths (5188146770730811 / 576460752303423488)).toNat
        = [48, 48, 56] := by
  have d1 : isDouble (-5 / 4) :=
    isDouble_of_multiple _ (-5) (-2) 1 (by norm_num [zpow_neg])
      (by rw [abs_lt]; constructor <;> norm_num) (by norm_num) (by norm_num) (by norm_num)
  have h1 : truncQ (-5 / 4) = -1 := by
    simp only [truncQ]; norm_num [Int.floor_eq_iff]
  have h2 : roundedThousandths (-5 / 4) = 250 := by
    unfold roundedThousandths
    rw [h1]
    have hp : ((-5 / 4 : ℚ) - ((-1 : Int) : ℚ)) * 1000 = ((-250 : Int) : ℚ) := by norm_num
    rw [hp, roundDouble_intCast _ (by rw [abs_lt]; constructor <;> norm_num)]
    rw [Int.floor_eq_iff]
    norm_num [abs_of_neg]
  have h3 : statedThousandths (-5 / 4) = 750 := by
    unfold statedThousandths
    have : ⌊(-5 / 4 : ℚ)⌋ = -2 := by norm_num [Int.floor_eq_iff]
    rw [this]; norm_num [Int.floor_eq_iff, abs_of_nonneg]
  have d2 : isDouble (5188146770730811 / 576460752303423488) :=
    isDouble_of_multiple _ 5188146770730811 (-59) (-6) (by norm_num [zpow_neg])
      (by rw [abs_lt]; constructor <;> norm_num [zpow_neg])
      (by norm_num) (by norm_num) (by norm_num)
  have k1 : truncQ (5188146770730811 / 576460752303423488) = 0 := by
    simp only [truncQ]; norm_num [Int.floor_eq_iff]
  have k2 : roundedThousandths (5188146770730811 / 576460752303423488) = 9 := by
    unfold roundedThousandths
    rw [k1]
    have hr := roundDouble_eval
      (((5188146770730811 / 576460752303423488 : ℚ) - ((0 : Int) : ℚ)) * 1000)
      3 5066549580791808
      (by rw [le_abs]; left; norm_num)
      (by rw [abs_lt]; constructor <;> norm_num)
      (by rw [abs_lt]; constructor <;> norm_num [zpow_neg])
    rw [hr]
    rw [Int.floor_eq_iff]
    norm_num [zpow_neg, abs_of_pos]
  have k3 : statedThousandths (5188146770730811 / 576460752303423488) = 8 := by
    unfold statedThousandths
    have : ⌊(5188146770730811 / 576460752303423488 : ℚ)⌋ = 0 := by
      norm_num [Int.floor_eq_iff]
    rw [this]; norm_num [Int.floor_eq_iff, abs_of_nonneg]
  have f1 : -2147483648 ≤ truncQ (-5 / 4) ∧ truncQ (-5 / 4) < 2147483648 := by
    rw [h1]; decide
  have f2 : -2147483648 ≤ truncQ (5188146770730811 / 576460752303423488) ∧
      truncQ (5188146770730811 / 576460752303423488) < 2147483648 := by
    rw [k1]; decide
  refine ⟨⟨d1, f1⟩, ?_, by rw [h3]; decide, ⟨d2, f2⟩, ?_, by rw [k3]; decide⟩
  · rw [printf_f_text _ d1 f1, h1, h2]
    decide
  · rw [printf_f_text _ d2 f2, k1, k2]
    decide

/-- C4, amended: for every double `f` whose truncated integer part `(int)f` fits in
`int`, the `%f` conversion emits the text of `(int)f`, a `'.'`, and then exactly three
characters, the decimal digits, zero-padded to three, of `floor(|p|)`, where `p` is the
double nearest to the exact product `(f − (int)f) × 1000` (the value the code's
multiplication yields). That number is below 1000, and it is
`floor(|f − (int)f| × 1000)` or that plus one; for `f ≥ 0` the truncated integer part is
`floor(f)`, so `floor(|f − (int)f| × 1000)` is the stated formula there. The double
nearest to 3.14159, which is 3537115888337719 / 2^50, yields "3.141". -/
theorem printf_f_fraction (f : ℚ) (hdbl : isDouble f)
    (hfit : -2147483648 ≤ truncQ f ∧ truncQ f < 2147483648) :
    zwasm_printf_f f
        = some (zwasm__itoa (truncQ f) ++ 46 :: threeDigits (roundedThousandths f).toNat) ∧
      (threeDigits (roundedThousandths f).toNat).length = 3 ∧
      (0 ≤ roundedThousandths f ∧ roundedThousandths f < 1000) ∧
      (truncThousandths f ≤ roundedThousandths f ∧
        roundedThousandths f ≤ truncThousandths f + 1) ∧
      (0 ≤ f → truncThousandths f = statedThousandths f) ∧
      zwasm_printf_f (3537115888337719 / 1125899906842624) = some [51, 46, 49, 52, 49] := by
  refine ⟨printf_f_text f hdbl hfit, rfl, roundedThousandths_lt f hdbl.1,
    roundedThousandths_near f, ?_, ?_⟩
  · intro h0
    unfold truncThousandths statedThousandths truncQ
    rw [if_pos h0]
  · have d3 : isDouble (3537115888337719 / 1125899906842624) :=
      isDouble_of_multiple _ 3537115888337719 (-50) 2 (by norm_num [zpow_neg])
        (by rw [abs_lt]; constructor <;> norm_num)
        (by norm_num) (by norm_num) (by norm_num)
    have h3 : truncQ (3537115888337719 / 1125899906842624) = 3 := by
      simp only [truncQ]; norm_num [Int.floor_eq_iff]
    have h141 : roundedThousandths (3537115888337719 / 1125899906842624) = 141 := by
      unfold roundedThousandths
      rw [h3]
      have hr := roundDouble_eval
        (((3537115888337719 / 1125899906842624 : ℚ) - ((3 : Int) : ℚ)) * 1000)
        7 4981755244057719
        (by rw [le_abs]; left; norm_num)
        (by rw [abs_lt]; constructor <;> norm_num)
        (by rw [abs_lt]; constructor <;> norm_num [zpow_neg])
      rw [hr]
      rw [Int.floor_eq_iff]
      norm_num [zpow_neg, abs_of_pos]
    rw [printf_f_text _ d3 (by rw [h3]; decide), h3, h141]
    decide

/-- C4 amended, at f = -0.75: the text is "0.750". -/
theorem printf_f_fraction_witness :
    (isDouble (-3 / 4) ∧ -2147483648 ≤ truncQ (-3 / 4) ∧ truncQ (-3 / 4) < 2147483648) ∧
      zwasm_printf_f (-3 / 4)
        = some (zwasm__itoa (truncQ (-3 / 4)) ++
            46 :: threeDigits (roundedThousandths (-3 / 4)).toNat) :=
  have d : isDouble (-3 / 4) :=
    isDouble_of_multiple _ (-3) (-2) 0 (by norm_num [zpow_neg])
      (by rw [abs_lt]; constructor <;> norm_num) (by norm_num) (by norm_num) (by norm_num)
  have h : -2147483648 ≤ truncQ (-3 / 4) ∧ truncQ (-3 / 4) < 2147483648 := by
    have h1 : truncQ (-3 / 4) = 0 := by
      simp only [truncQ]; norm_num [Int.floor_eq_iff]
    rw [h1]; decide
  ⟨⟨d, h⟩, (printf_f_fraction (-3 / 4) d h).1⟩

/-- C5, amended: for every pattern text without zero bytes that does not end in a lone
`'%'`, and every argument list, when the rendering of its parts is shorter than 1000
bytes (nothing is truncated) `zwasm_printf` stores exactly that rendering and the
terminator and hands the rendering to `zwasm_log`: bytes that are neither a `'%'` nor
the byte after one are copied literally and in order, `%d`, `%s` and `%f` emit their
conversion and consume one argument each, and a `'%'` followed by any other byte puts
neither byte in the output and consumes no argument. -/
theorem printf_pieces (t junk : List Nat) (args : List Arg) (r : List Nat)
    (hz : ∀ b ∈ t, b ≠ 0) (hd : dangling t = false)
    (hr : render (pieces t) args = some r) (hlen : r.length < 1000) :
    zwasm_printf_stores (t ++ 0 :: junk) args = some (r ++ [0]) ∧
      zwasm_printf (t ++ 0 :: junk) args = some r := by
  have hloop := printf_loop_pieces junk t.length t [] args r (le_refl _) hz hd hr
    (by simpa using hlen)
  rw [List.nil_append] at hloop
  have hs := stores_of_loop _ _ _ hloop
  have hnz : ∀ b ∈ r, b ≠ 0 :=
    render_nonzero (pieces t) args r
      (fun c hc => hz c (lit_mem_pieces t.length t (le_refl _) c hc)) hr
  refine ⟨hs, ?_⟩
  rw [printf_of_stores _ _ _ hs, if_pos (by rw [List.length_append, List.length_singleton]; omega),
    log_text r hnz]

/-- C5 amended, on the pattern "n=%d %s%%!" with the arguments -5 and "ok": the text
is "n=-5 ok!". -/
theorem printf_pieces_witness :
    zwasm_printf [110, 61, 37, 100, 32, 37, 115, 37, 37, 33, 0] [Arg.int (-5), Arg.str [111, 107, 0]]
      = some [110, 61, 45, 53, 32, 111, 107, 33] :=
  (printf_pieces [110, 61, 37, 100, 32, 37, 115, 37, 37, 33] []
    [Arg.int (-5), Arg.str [111, 107, 0]] [110, 61, 45, 53, 32, 111, 107, 33]
    (by decide) (by decide) (by decide) (by decide)).2

/-- C5 as stated fails on the call of example_0.c, the pattern "Float:   %.4f": it
holds no `%d`, `%s` or `%f` conversion, yet the `'%'` and the `'.'` after it are not
copied; the text is "Float:   4f". -/
theorem printf_unknown_conversion :
    zwasm_printf [70, 108, 111, 97, 116, 58, 32, 32, 32, 37, 46, 52, 102, 0]
        [Arg.dbl (314159 / 100000)]
      = some [70, 108, 111, 97, 116, 58, 32, 32, 32, 52, 102] ∧
      37 ∉ [70, 108, 111, 97, 116, 58, 32, 32, 32, 52, 102] ∧
      46 ∉ [70, 108, 111, 97, 116, 58, 32, 32, 32, 52, 102] := by
  decide

/-- C6 as stated fails when the request runs past the end of the 32-bit address space:
with the cursor at 65536, `zwasm_malloc(4294967295)` returns 65536 and leaves the cursor
at 65535, below the block it returned, and the next `zwasm_malloc(16)` returns 65535, a
block that overlaps the first. -/
theorem malloc_wraps :
    (zwasm_malloc 4294967295 heap0).1 = 65536 ∧
      (zwasm_malloc 4294967295 heap0).2.heap_ptr = 65535 ∧
      ¬ ((zwasm_malloc 4294967295 heap0).1 + 4294967295
          ≤ (zwasm_malloc 4294967295 heap0).2.heap_ptr) ∧
      (zwasm_malloc 16 (zwasm_malloc 4294967295 heap0).2).1 = 65535 := by
  decide

/-- C6, amended: for every allocator state with cursor h ≥ base and all sizes a, b with
h + a + b below 2^32 (no request runs past the end of the address space),
`zwasm_malloc(a)` returns p = h and sets the cursor to h + a, so base ≤ p and p + a is at
most the cursor after the call; a following `zwasm_malloc(b)` returns h + a, and the two
blocks [p1, p1+a) and [p2, p2+b) share no address. -/
theorem malloc_block (base : Nat) (st : Heap) (a b : Nat)
    (hb : base ≤ st.heap_ptr) (hfit : st.heap_ptr + a + b < 4294967296) :
    (zwasm_malloc a st).1 = st.heap_ptr ∧
      (zwasm_malloc a st).2.heap_ptr = st.heap_ptr + a ∧
      base ≤ (zwasm_malloc a st).1 ∧
      (zwasm_malloc a st).1 + a ≤ (zwasm_malloc a st).2.heap_ptr ∧
      (zwasm_malloc b (zwasm_malloc a st).2).1 = st.heap_ptr + a ∧
      (∀ x, ¬ (((zwasm_malloc a st).1 ≤ x ∧ x < (zwasm_malloc a st).1 + a) ∧
        ((zwasm_malloc b (zwasm_malloc a st).2).1 ≤ x ∧
          x < (zwasm_malloc b (zwasm_malloc a st).2).1 + b))) := by
  have h1 : ptr_add st.heap_ptr a = st.heap_ptr + a := ptr_add_fit _ _ (by omega)
  have e1 : (zwasm_malloc a st).1 = st.heap_ptr := rfl
  have e2 : (zwasm_malloc a st).2.heap_ptr = st.heap_ptr + a := h1
  have e3 : (zwasm_malloc b (zwasm_malloc a st).2).1 = st.heap_ptr + a := h1
  rw [e1, e2, e3]
  exact ⟨rfl, rfl, hb, le_refl _, rfl, fun x => by omega⟩

/-- C6 amended, for two requests of 16 and 32 bytes with the cursor at 65536. -/
theorem malloc_block_witness :
    (65536 ≤ heap0.heap_ptr ∧ heap0.heap_ptr + 16 + 32 < 4294967296) ∧
      (zwasm_malloc 16 heap0).1 + 16 ≤ (zwasm_malloc 16 heap0).2.heap_ptr ∧
      (zwasm_malloc 32 (zwasm_malloc 16 heap0).2).1 = heap0.heap_ptr + 16 :=
  ⟨⟨by decide, by decide⟩,
    (malloc_block 65536 heap0 16 32 (by decide) (by decide)).2.2.2.1,
    (malloc_block 65536 heap0 16 32 (by decide) (by decide)).2.2.2.2.1⟩

/-- C7 as stated fails on the one-call sequence `zwasm_malloc(4294967295)` with the
cursor at 65536: the cursor wraps to 65535, so it decreases. -/
theorem cursor_wraps :
    (runAlloc heap0 [AllocOp.malloc 4294967295]).heap_ptr = 65535 ∧
      (runAlloc heap0 [AllocOp.malloc 4294967295]).heap_ptr < heap0.heap_ptr := by
  decide

/-- C7, amended: over every finite sequence of `zwasm_mem_init`, `zwasm_malloc`,
`zwasm_realloc` and `zwasm_free` calls whose requested sizes, added to the cursor, stay
below 2^32, the cursor never decreases (after any prefix of the sequence it is at most
what it is after the whole sequence, where it equals the start value plus the bytes
requested); `zwasm_free` and `zwasm_mem_init` return the state (cursor and memory)
unchanged for every argument, so only the allocating calls move the cursor. -/
theorem cursor_monotone (st : Heap) (pre post : List AllocOp)
    (hfit : st.heap_ptr + ((pre ++ post).map AllocOp.request).sum < 4294967296) :
    (runAlloc st pre).heap_ptr ≤ (runAlloc st (pre ++ post)).heap_ptr ∧
      (runAlloc st (pre ++ post)).heap_ptr
        = st.heap_ptr + ((pre ++ post).map AllocOp.request).sum ∧
      (∀ (ptr : Nat) (h : Heap), zwasm_free ptr h = h) ∧
      (∀ (s sz : Nat) (h : Heap), zwasm_mem_init s sz h = h) ∧
      (∀ (ptr : Nat) (h : Heap), AllocOp.step h (AllocOp.free ptr) = h) ∧
      (∀ (s sz : Nat) (h : Heap), AllocOp.step h (AllocOp.mem_init s sz) = h) := by
  have hsum : ((pre ++ post).map AllocOp.request).sum
      = (pre.map AllocOp.request).sum + (post.map AllocOp.request).sum := by
    rw [List.map_append, List.sum_append]
  have h1 := run_cursor (pre ++ post) st hfit
  have h2 := run_cursor pre st (by omega)
  refine ⟨by omega, h1, fun _ _ => rfl, fun _ _ _ => rfl, fun _ _ => rfl, fun _ _ _ => rfl⟩

/-- C7 amended, on malloc(16), free, then realloc(32), mem_init from the cursor 65536. -/
theorem cursor_monotone_witness :
    heap0.heap_ptr + (([AllocOp.malloc 16, AllocOp.free 65536] ++
          [AllocOp.realloc 65536 32, AllocOp.mem_init 0 0]).map AllocOp.request).sum
        < 4294967296 ∧
      (runAlloc heap0 [AllocOp.malloc 16, AllocOp.free 65536]).heap_ptr
        ≤ (runAlloc heap0 ([AllocOp.malloc 16, AllocOp.free 65536] ++
            [AllocOp.realloc 65536 32, AllocOp.mem_init 0 0])).heap_ptr :=
  ⟨by decide,
    (cursor_monotone heap0 [AllocOp.malloc 16, AllocOp.free 65536]
      [AllocOp.realloc 65536 32, AllocOp.mem_init 0 0] (by decide)).1⟩

/-- C9: for every key code c with 0 ≤ c < 256 and every prior state of the key table,
`zwasm_on_key(c, true)` followed by `zwasm_key_down(c)` returns true, and
`zwasm_on_key(c, false)` followed by `zwasm_key_down(c)` returns false. -/
theorem on_key_then_down (c : Int) (keys : Fin 256 → Bool) (h0 : 0 ≤ c) (h1 : c < 256) :
    zwasm_key_down c (zwasm_on_key c true keys) = true ∧
      zwasm_key_down c (zwasm_on_key c false keys) = false := by
  have h : c ≥ 0 ∧ c < 256 := ⟨h0, h1⟩
  simp [zwasm_key_down, zwasm_on_key, h]

/-- C9 for the space bar (code 32, the key game.cpp polls), from the initial table. -/
theorem on_key_then_down_witness :
    ((0 : Int) ≤ 32 ∧ (32 : Int) < 256) ∧
      zwasm_key_down 32 (zwasm_on_key 32 true zwasm__keys) = true ∧
      zwasm_key_down 32 (zwasm_on_key 32 false zwasm__keys) = false :=
  ⟨⟨by decide, by decide⟩, on_key_then_down 32 zwasm__keys (by decide) (by decide)⟩

/-- C10: for every key code c with c < 0 or c ≥ 256, every flag value and every prior
state of the key table, `zwasm_on_key(c, v)` returns the table unchanged (all 256
entries) and `zwasm_key_down(c)` returns false, before and after that call. -/
theorem on_key_out_of_range (c : Int) (v : Bool) (keys : Fin 256 → Bool)
    (h : c < 0 ∨ c ≥ 256) :
    zwasm_on_key c v keys = keys ∧ zwasm_key_down c keys = false ∧
      zwasm_key_down c (zwasm_on_key c v keys) = false := by
  have hn : ¬ (c ≥ 0 ∧ c < 256) := by omega
  simp [zwasm_key_down, zwasm_on_key, hn]

/-- C10 for the code 256, the first one past the table, from the initial table. -/
theorem on_key_out_of_range_witness :
    ((256 : Int) < 0 ∨ (256 : Int) ≥ 256) ∧
      zwasm_on_key 256 true zwasm__keys = zwasm__keys ∧
      zwasm_key_down 256 zwasm__keys = false :=
  ⟨by decide,
    (on_key_out_of_range 256 true zwasm__keys (by decide)).1,
    (on_key_out_of_range 256 true zwasm__keys (by decide)).2.1⟩

/-- C11: for every terminated element id and html text (whatever follows their
terminators in memory), `zwasm_dom_set_html` stores the concatenation
s1 ++ id ++ s2 ++ html ++ s3 cut at 4095 bytes, then the terminator, at most 4096 bytes
in all and so inside `char buf[4096]`; the script text handed to `zwasm_eval` is that
cut concatenation, and it is the whole concatenation, id and html verbatim, when the
concatenation has at most 4095 bytes. -/
theorem dom_set_html_text (id html j1 j2 : List Nat)
    (hid : ∀ b ∈ id, b ≠ 0) (hhtml : ∀ b ∈ html, b ≠ 0) :
    zwasm_dom_set_html_stores (id ++ 0 :: j1) (html ++ 0 :: j2)
        = some ((dom_s1 ++ id ++ dom_s2 ++ html ++ dom_s3).take 4095 ++ [0]) ∧
      ((dom_s1 ++ id ++ dom_s2 ++ html ++ dom_s3).take 4095 ++ [0]).length ≤ 4096 ∧
      zwasm_dom_set_html (id ++ 0 :: j1) (html ++ 0 :: j2)
        = some ((dom_s1 ++ id ++ dom_s2 ++ html ++ dom_s3).take 4095, true) ∧
      ((dom_s1 ++ id ++ dom_s2 ++ html ++ dom_s3).length ≤ 4095 →
        zwasm_dom_set_html (id ++ 0 :: j1) (html ++ 0 :: j2)
          = some (dom_s1 ++ id ++ dom_s2 ++ html ++ dom_s3, true)) := by
  have hs := dom_stores_eq id html j1 j2 hid hhtml
  have hl : ((dom_s1 ++ id ++ dom_s2 ++ html ++ dom_s3).take 4095 ++ [0]).length ≤ 4096 := by
    rw [List.length_append, List.length_take, List.length_singleton]
    omega
  have hnz : ∀ b ∈ dom_s1 ++ id ++ dom_s2 ++ html ++ dom_s3, b ≠ 0 := by
    have h1 : ∀ b ∈ dom_s1, b ≠ 0 := by decide
    have h2 : ∀ b ∈ dom_s2, b ≠ 0 := by decide
    have h3 : ∀ b ∈ dom_s3, b ≠ 0 := by decide
    intro b hb
    simp only [List.mem_append] at hb
    rcases hb with (((hb | hb) | hb) | hb) | hb
    · exact h1 b hb
    · exact hid b hb
    · exact h2 b hb
    · exact hhtml b hb
    · exact h3 b hb
  have he : zwasm_dom_set_html (id ++ 0 :: j1) (html ++ 0 :: j2)
      = some ((dom_s1 ++ id ++ dom_s2 ++ html ++ dom_s3).take 4095, true) := by
    unfold zwasm_dom_set_html
    rw [hs]
    simp only [hl, if_true]
    have := log_text _ (take_nonzero _ 4095 hnz)
    unfold zwasm_log at this
    unfold zwasm_eval
    rw [this]
  refine ⟨hs, hl, he, ?_⟩
  intro hfit
  rw [he, List.take_of_length_le hfit]

/-- C11 on the call `zwasm_dom_set_html("app", "<h1>Hi</h1>")`. -/
theorem dom_set_html_text_witness :
    zwasm_dom_set_html [97, 112, 112, 0] [60, 104, 49, 62, 72, 105, 60, 47, 104, 49, 62, 0]
      = some (dom_s1 ++ [97, 112, 112] ++ dom_s2 ++
          [60, 104, 49, 62, 72, 105, 60, 47, 104, 49, 62] ++ dom_s3, true) :=
  (dom_set_html_text [97, 112, 112] [60, 104, 49, 62, 72, 105, 60, 47, 104, 49, 62] [] []
    (by decide) (by decide)).2.2.2 (by decide)

/-- C12: for every byte sequence that contains a zero byte, `strlen` returns a value n
(the loop meets the terminator inside the sequence), the byte at index n is zero, each
of the n bytes before it is non-zero, and n is the count of bytes preceding the first
zero byte. -/
theorem strlen_first_zero (s : List Nat) (h : 0 ∈ s) :
    ∃ n, strlen s = some n ∧ n < s.length ∧ s[n]? = some 0 ∧
      (∀ i, i < n → ∃ b, s[i]? = some b ∧ b ≠ 0) ∧
      n = (s.takeWhile (fun b => b ≠ 0)).length := by
  obtain ⟨n, h1, h2⟩ := strlen_loop_spec s 0 h
  exact ⟨n, by unfold strlen; simpa using h1, h2⟩

/-- C12 on the bytes "=> H", 0, 7, 0. -/
theorem strlen_first_zero_witness :
    (0 : Nat) ∈ [61, 62, 32, 72, 0, 7, 0] ∧ ∃ n, strlen [61, 62, 32, 72, 0, 7, 0] = some n ∧
      n < [61, 62, 32, 72, 0, 7, 0].length ∧ [61, 62, 32, 72, 0, 7, 0][n]? = some 0 ∧
      (∀ i, i < n → ∃ b, [61, 62, 32, 72, 0, 7, 0][i]? = some b ∧ b ≠ 0) ∧
      n = ([61, 62, 32, 72, 0, 7, 0].takeWhile (fun b => b ≠ 0)).length :=
  ⟨by decide, strlen_first_zero [61, 62, 32, 72, 0, 7, 0] (by decide)⟩

/-- C13: for every count n and every two ranges [d, d+n) and [s, s+n) of the 32-bit
linear memory that do not overlap, `memcpy(d, s, n)` returns d, makes the n bytes at d
equal to the n bytes that were at s, and leaves every byte outside [d, d+n) unchanged,
the source included; with n = 0 memory is unchanged. -/
theorem memcpy_frame (d s n : Nat) (m : Nat → Nat)
    (hd : d + n ≤ 4294967296) (hs : s + n ≤ 4294967296) (hdisj : s + n ≤ d ∨ d + n ≤ s) :
    (memcpy d s n m).1 = d ∧
      (∀ k, k < n → (memcpy d s n m).2 (d + k) = m (s + k)) ∧
      (∀ a, ¬ (d ≤ a ∧ a < d + n) → (memcpy d s n m).2 a = m a) ∧
      (∀ k, k < n → (memcpy d s n m).2 (s + k) = m (s + k)) ∧
      (memcpy d s 0 m).2 = m := by
  obtain ⟨h1, h2⟩ := memcpy_loop_spec n d s m hd hs hdisj
  refine ⟨rfl, h1, h2, ?_, rfl⟩
  intro k hk
  exact h2 (s + k) (by omega)

/-- C13 for `memcpy(65536, 16, 2)`: the second byte copied is the byte at address 17. -/
theorem memcpy_frame_witness :
    (65536 + 2 ≤ 4294967296 ∧ 16 + 2 ≤ 4294967296 ∧ (16 + 2 ≤ 65536 ∨ 65536 + 2 ≤ 16)) ∧
      (memcpy 65536 16 2 heap1.mem).2 (65536 + 1) = heap1.mem (16 + 1) :=
  ⟨by decide,
    (memcpy_frame 65536 16 2 heap1.mem (by decide) (by decide) (by decide)).2.1 1 (by decide)⟩

/-- C14 as stated fails at r = RAND_MAX: numerator and denominator are the same
`float`, so the quotient is 1, which is not below 1 (shown for RAND_MAX = 2147483647 with
exact conversions). -/
theorem random_reaches_one :
    ((0 : Int) ≤ 2147483647 ∧ (2147483647 : Int) ≤ 2147483647) ∧
      zwasm_random id 2147483647 2147483647 = 1 ∧
      ¬ (zwasm_random id 2147483647 2147483647 < 1) := by
  have h : zwasm_random id 2147483647 2147483647 = 1 := by
    unfold zwasm_random
    norm_num
  refine ⟨by decide, h, ?_⟩
  rw [h]
  norm_num

/-- C14, amended: for every value r with 0 ≤ r ≤ RAND_MAX, and every rounding to
`float` that is monotone, keeps 0 and 1 and maps RAND_MAX to a positive value, the host
stand-in `zwasm_random` returns v with 0 ≤ v ≤ 1, and v = 1 when r = RAND_MAX. -/
theorem random_unit_interval (fl : ℚ → ℚ) (RAND_MAX r : Int)
    (hmono : Monotone fl) (h0 : fl 0 = 0) (h1 : fl 1 = 1) (hmax : 0 < fl (RAND_MAX : ℚ))
    (hr0 : 0 ≤ r) (hr1 : r ≤ RAND_MAX) :
    0 ≤ zwasm_random fl RAND_MAX r ∧ zwasm_random fl RAND_MAX r ≤ 1 ∧
      zwasm_random fl RAND_MAX RAND_MAX = 1 := by
  unfold zwasm_random
  have hr : (0 : ℚ) ≤ fl (r : ℚ) := by
    rw [← h0]; exact hmono (by exact_mod_cast hr0)
  have hle : fl (r : ℚ) ≤ fl (RAND_MAX : ℚ) := hmono (by exact_mod_cast hr1)
  refine ⟨?_, ?_, ?_⟩
  · rw [← h0]
    exact hmono (div_nonneg hr (le_of_lt hmax))
  · rw [← h1]
    exact hmono ((div_le_one hmax).mpr hle)
  · rw [div_self (ne_of_gt hmax), h1]

/-- C14 amended, for RAND_MAX = 2147483647, r = 5 and exact conversions. -/
theorem random_unit_interval_witness :
    0 ≤ zwasm_random id 2147483647 5 ∧ zwasm_random id 2147483647 5 ≤ 1 :=
  ⟨(random_unit_interval id 2147483647 5 monotone_id rfl rfl (by norm_num) (by decide)
      (by decide)).1,
    (random_unit_interval id 2147483647 5 monotone_id rfl rfl (by norm_num) (by decide)
      (by decide)).2.1⟩

/-- C15: starting from the all-false table, after any finite sequence of
`zwasm_on_key(code, is_down)` events, for every c in [0,256) `zwasm_key_down(c)` is the
`is_down` value of the most recent event whose code is c, and false if there is none;
an event for any other code, in range or not, leaves the answer for c as it was. -/
theorem key_level_only (events : List (Int × Bool)) (c : Int) (hc0 : 0 ≤ c) (hc1 : c < 256) :
    zwasm_key_down c (keyEvents zwasm__keys events) = lastLevel c events ∧
      (∀ (keys : Fin 256 → Bool) (c' : Int) (v : Bool), c' ≠ c →
        zwasm_key_down c (zwasm_on_key c' v keys) = zwasm_key_down c keys) := by
  refine ⟨?_, ?_⟩
  · rw [key_events_level c hc0 hc1 zwasm__keys events]
    unfold lastLevel
    have hinit : zwasm_key_down c zwasm__keys = false := by
      unfold zwasm_key_down zwasm__keys
      split <;> rfl
    rw [hinit]
  · intro keys c' v hne
    rw [key_down_on_key c c' v keys hc0 hc1, if_neg hne]

/-- C15 for the space bar after six events, two of them with codes outside the table. -/
theorem key_level_only_witness :
    ((0 : Int) ≤ 32 ∧ (32 : Int) < 256) ∧
      zwasm_key_down 32 (keyEvents zwasm__keys
          [(32, true), (37, true), (300, true), (32, false), (-1, true), (37, false)])
        = lastLevel 32 [(32, true), (37, true), (300, true), (32, false), (-1, true), (37, false)] :=
  ⟨by decide,
    (key_level_only [(32, true), (37, true), (300, true), (32, false), (-1, true), (37, false)]
      32 (by decide) (by decide)).1⟩

/-- C16: for every terminated pattern of length n without a `'%'` byte (whatever
follows the terminator, whatever arguments are passed), `zwasm_printf` stores the first
min(n, 1000) bytes of the pattern and the terminator, and hands those first
min(n, 1000) bytes to `zwasm_log`: the whole pattern when n ≤ 1000. -/
theorem printf_literal (t junk : List Nat) (args : List Arg)
    (hz : ∀ b ∈ t, b ≠ 0) (hp : 37 ∉ t) :
    zwasm_printf_stores (t ++ 0 :: junk) args = some (t.take 1000 ++ [0]) ∧
      zwasm_printf (t ++ 0 :: junk) args = some (t.take 1000) ∧
      (t.take 1000).length = min t.length 1000 ∧
      (t.length ≤ 1000 → zwasm_printf (t ++ 0 :: junk) args = some t) := by
  have hloop := printf_loop_lit junk args t [] hz hp
  simp only [List.nil_append, List.length_nil, Nat.sub_zero] at hloop
  have hs := stores_of_loop _ _ _ hloop
  have hlen : (t.take 1000).length = min t.length 1000 := by
    rw [List.length_take]; omega
  have hp2 : zwasm_printf (t ++ 0 :: junk) args = some (t.take 1000) := by
    rw [printf_of_stores _ _ _ hs,
      if_pos (by rw [List.length_append, List.length_singleton]; omega),
      log_text _ (take_nonzero t 1000 hz)]
  refine ⟨hs, hp2, hlen, ?_⟩
  intro hfit
  rw [hp2, List.take_of_length_le hfit]

/-- C16 on the call of game.cpp, the pattern "C++ Game Initialized". -/
theorem printf_literal_witness :
    zwasm_printf
        [67, 43, 43, 32, 71, 97, 109, 101, 32, 73, 110, 105, 116, 105, 97, 108, 105, 122,
          101, 100, 0] []
      = some [67, 43, 43, 32, 71, 97, 109, 101, 32, 73, 110, 105, 116, 105, 97, 108, 105, 122,
          101, 100] :=
  (printf_literal [67, 43, 43, 32, 71, 97, 109, 101, 32, 73, 110, 105, 116, 105, 97, 108, 105, 122,
          101, 100]
    [] [] (by decide) (by decide)).2.2.2 (by decide)

/-- C17, evaluated where it fails: the pattern "%" holds no `%s` conversion, but it is
stored in the array "%", 0, "%s", 0 and the call passes a string of 1500 bytes `'A'`.
The `'%'` swallows the terminator, the scan goes on to the `%s` behind it, and the copy
stores 1500 bytes and the terminator at `buf[0..1500]`, outside `char buf[1024]`. -/
theorem printf_trailing_percent_overflow :
    Piece.convS ∉ pieces [37] ∧
      zwasm_printf_stores [37, 0, 37, 115, 0] [Arg.str (List.replicate 1500 65 ++ [0])]
        = some (List.replicate 1500 65 ++ [0]) ∧
      1024 < (List.replicate 1500 65 ++ [0]).length ∧
      zwasm_printf [37, 0, 37, 115, 0] [Arg.str (List.replicate 1500 65 ++ [0])] = none := by
  have hs := stores_of_loop _ _ _
    (printf_loop_trailing (List.replicate 1500 65) [] [] (replicate_65_nonzero 1500))
  have hl : (List.replicate 1500 65 ++ [0]).length = 1500 + 1 := by
    rw [List.length_append, List.length_replicate, List.length_singleton]
  refine ⟨by simp [pieces], hs, by omega, ?_⟩
  rw [printf_of_stores _ _ _ hs, if_neg (by omega)]

/-- C18, evaluated where it fails: on the pattern "%" the scan loop steps over the
terminator at index 1 and reads index 2: the text logged is the byte stored there (65
in one memory, 66 in another), and when nothing is modelled after the terminator the
read has no defined result. -/
theorem printf_reads_past_terminator :
    dangling [37] = true ∧
      zwasm_printf [37, 0, 65, 0] [] = some [65] ∧
      zwasm_printf [37, 0, 66, 0] [] = some [66] ∧
      zwasm_printf_loop [37, 0] [] [] = none := by
  decide

/-- C19, evaluated where it fails: for f = -0.5 the integer part `(int)f` is 0, so no
`'-'` is written; the text is "0.500", which reads as +500 thousandths, while f
truncated toward zero to three fractional digits is -500 thousandths. -/
theorem printf_f_sign_lost :
    (-2147483648 ≤ truncQ (-1 / 2) ∧ truncQ (-1 / 2) < 2147483648) ∧
      zwasm_printf_f (-1 / 2) = some [48, 46, 53, 48, 48] ∧
      decodeMilli [48, 46, 53, 48, 48] = some 500 ∧
      truncQ (-1 / 2 * 1000) = -500 := by
  have d : isDouble (-1 / 2) :=
    isDouble_of_multiple _ (-1) (-1) 0 (by norm_num [zpow_neg])
      (by rw [abs_lt]; constructor <;> norm_num) (by norm_num) (by norm_num) (by norm_num)
  have h1 : truncQ (-1 / 2) = 0 := by
    simp only [truncQ]; norm_num [Int.floor_eq_iff]
  have h2 : roundedThousandths (-1 / 2) = 500 := by
    unfold roundedThousandths
    rw [h1]
    have hp : ((-1 / 2 : ℚ) - ((0 : Int) : ℚ)) * 1000 = ((-500 : Int) : ℚ) := by norm_num
    rw [hp, roundDouble_intCast _ (by rw [abs_lt]; constructor <;> norm_num)]
    rw [Int.floor_eq_iff]
    norm_num [abs_of_neg]
  have h3 : truncQ (-1 / 2 * 1000) = -500 := by
    simp only [truncQ]; norm_num [Int.floor_eq_iff]
  refine ⟨by rw [h1]; decide, ?_, by decide, h3⟩
  rw [printf_f_text _ d (by rw [h1]; decide), h1, h2]
  decide

/-- C20: in the bouncer example, after each of the first 60 calls of `on_frame` (and
before the first) 0 ≤ x ≤ width − size and 0 ≤ y ≤ height − size hold; on every call,
from every state, a velocity is negated exactly when its coordinate, after the move,
touches a wall (coordinate ≤ 0 or coordinate + size ≥ dimension) and is unchanged
otherwise, independently of the other axis; in these 60 frames no wall is touched and
both velocities stay 4. -/
theorem bouncer_in_bounds (k : Nat) (hk : k ≤ 60) :
    (0 ≤ (frames k).x ∧ (frames k).x ≤ width - size) ∧
      (0 ≤ (frames k).y ∧ (frames k).y ≤ height - size) ∧
      (∀ s : Bouncer,
        ((s.x + s.dx ≤ 0 ∨ s.x + s.dx + size ≥ width) → (on_frame s).dx = -s.dx) ∧
        (¬ (s.x + s.dx ≤ 0 ∨ s.x + s.dx + size ≥ width) → (on_frame s).dx = s.dx) ∧
        ((s.y + s.dy ≤ 0 ∨ s.y + s.dy + size ≥ height) → (on_frame s).dy = -s.dy) ∧
        (¬ (s.y + s.dy ≤ 0 ∨ s.y + s.dy + size ≥ height) → (on_frame s).dy = s.dy) ∧
        (on_frame s).x = s.x + s.dx ∧ (on_frame s).y = s.y + s.dy) ∧
      (frames k).dx = 4 ∧ (frames k).dy = 4 := by
  have hk' : (k : ℚ) ≤ 60 := by exact_mod_cast hk
  have hk0 : (0 : ℚ) ≤ (k : ℚ) := Nat.cast_nonneg k
  rw [frames_eq k hk]
  refine ⟨⟨by simp only; linarith, by simp only [width, size]; linarith⟩,
    ⟨by simp only; linarith, by simp only [height, size]; linarith⟩, ?_, rfl, rfl⟩
  intro s
  unfold on_frame
  refine ⟨fun h => by simp only [h, if_true], fun h => by simp only [h, if_false],
    fun h => by simp only [h, if_true], fun h => by simp only [h, if_false], rfl, rfl⟩

/-- C20 at the last of the 60 frames. -/
theorem bouncer_in_bounds_witness :
    (60 ≤ 60) ∧ (0 ≤ (frames 60).x ∧ (frames 60).x ≤ width - size) ∧
      (0 ≤ (frames 60).y ∧ (frames 60).y ≤ height - size) :=
  ⟨le_refl 60, (bouncer_in_bounds 60 (by decide)).1,
    (bouncer_in_bounds 60 (by decide)).2.1⟩

end Zwasm
